import Mathlib

/-!
Verification of the "vis" repository's analytical core against its
natural-language specification.

The development shallowly embeds the relevant source functions:
* `intsec.py` — `visTheseParts` (the legacy two-voice aligner) and
  `NGram.stringVersion` (the label formatter);
* `analytic_engine.py` — `round_to`, `fill_space_between_offsets`, and the
  n-gram recording block of `vis_these_parts`;
* `controllers/experimenter.py` — the duplicated
  `LilyPondExperiment.fill_space_between_offsets`;
* `vis/analyzers/indexers/over_bass.py` — `OverBassIndexer.__init__`;
* the `NewNGramIndexer` (missing from the source tree; modelled from the
  specification, see the doc comments of the `SpecModel` namespace).

Python floats that hold musical offsets and quarterLength durations are
modelled as rationals (`ℚ`); Python `str` values are modelled as `String`
or as `List Char` where character-level reasoning is required.
-/

namespace Vis

/-! ## `analytic_engine.round_to`

Embedding of the helper defined inside `vis_these_parts`
(`src/analytic_engine.py`, lines 203-210):

```python
def round_to( n, precision ):
   correction = 0.5 if n >= 0 else -0.5
   return int( n / precision + correction ) * precision
```

Python's `int()` truncates toward zero, which is `⌊·⌋` for nonnegative
arguments and `⌈·⌉` for negative ones. -/

/-- Python `int(q)`: truncation toward zero. -/
def pyInt (q : ℚ) : ℤ :=
  if 0 ≤ q then ⌊q⌋ else ⌈q⌉

/-- `round_to` from `vis_these_parts` in `src/analytic_engine.py`. -/
def round_to (n precision : ℚ) : ℚ :=
  let correction : ℚ := if 0 ≤ n then 1/2 else -(1/2)
  (pyInt (n / precision + correction) : ℚ) * precision

theorem round_to_nonneg_eq_floor (n precision : ℚ) (hn : 0 ≤ n) (hp : 0 < precision) :
    round_to n precision = (⌊n / precision + 1/2⌋ : ℚ) * precision := by
  have h1 : (0:ℚ) ≤ n / precision := div_nonneg hn hp.le
  have h2 : (0:ℚ) ≤ n / precision + 1/2 := by linarith
  simp only [round_to, pyInt, if_pos hn, if_pos h2]

/-- C8: for every offset `n ≥ 0` and positive counting interval `p`, the legacy
aligner's rounding helper `round_to n p` returns an integer multiple of `p`
whose distance from `n` is at most `p / 2` (the nearest multiple, ties up). -/
theorem round_to_nearest_multiple (n p : ℚ) (hn : 0 ≤ n) (hp : 0 < p) :
    (∃ k : ℤ, round_to n p = (k : ℚ) * p) ∧ |round_to n p - n| ≤ p / 2 := by
  rw [round_to_nonneg_eq_floor n p hn hp]
  refine ⟨⟨⌊n / p + 1/2⌋, rfl⟩, ?_⟩
  rw [abs_le]
  have hfl : (⌊n / p + 1/2⌋ : ℚ) ≤ n / p + 1/2 := Int.floor_le _
  have hfg : n / p + 1/2 - 1 < (⌊n / p + 1/2⌋ : ℚ) := Int.sub_one_lt_floor _
  have hmul₁ : (⌊n / p + 1/2⌋ : ℚ) * p ≤ (n / p + 1/2) * p :=
    mul_le_mul_of_nonneg_right hfl hp.le
  have hmul₂ : (n / p - 1/2) * p < (⌊n / p + 1/2⌋ : ℚ) * p := by
    have : n / p + 1/2 - 1 = n / p - 1/2 := by ring
    exact mul_lt_mul_of_pos_right (by rw [← this]; exact hfg) hp
  have hdiv : n / p * p = n := div_mul_cancel₀ n hp.ne'
  constructor
  · nlinarith [hmul₂, hdiv]
  · nlinarith [hmul₁, hdiv]

/-- Witness for `round_to_nearest_multiple` at `n = 12.6`, `p = 1/2`
(the docstring's own example: `round_to(12.6, 0.5) == 12.5`). -/
theorem round_to_nearest_multiple_witness :
    (0:ℚ) ≤ 63/5 ∧ (0:ℚ) < 1/2 ∧
      ((∃ k : ℤ, round_to (63/5) (1/2) = (k : ℚ) * (1/2)) ∧
        |round_to (63/5) (1/2) - 63/5| ≤ (1/2) / 2) :=
  ⟨by norm_num, by norm_num,
    round_to_nearest_multiple (63/5) (1/2) (by norm_num) (by norm_num)⟩

/-! ## `fill_space_between_offsets`, duplicated in two modules

Embedding of `fill_space_between_offsets` from `src/analytic_engine.py`
(lines 39-101) and of its duplicate, the static method
`LilyPondExperiment.fill_space_between_offsets` in
`src/controllers/experimenter.py` (lines 1233-1293).  Both consist of a
helper `highest_valid_qL` and a recursive `the_solver`; the only textual
difference is the exception raised in the unreachable negative branch
(`NonsensicalInputError` vs `RuntimeError`), which both embeddings model
as `none`. -/

/-- The valid quarterLength durations, whole note to 256th
(`list_of_durations` in `src/analytic_engine.py`). -/
def list_of_durations : List ℚ := [2, 1, 1/2, 1/4, 1/8, 1/16, 1/32, 1/64, 0]

/-- `highest_valid_qL` from `src/analytic_engine.py`: the first duration in
the list equal to `rem`, else the first one strictly below `rem`; `none`
(Python `None` falling off the loop) if there is none. -/
def highest_valid_qL (rem : ℚ) : Option ℚ :=
  if rem ∈ list_of_durations then some rem
  else list_of_durations.find? (fun dur => dur < rem)

theorem highest_valid_qL_of_ne {rem pf : ℚ} (hfind : highest_valid_qL rem = some pf)
    (hne : pf ≠ rem) (h : 1/64 ≤ rem) : 1/64 ≤ pf ∧ pf ≤ 2 ∧ pf < rem := by
  by_cases hmem : rem ∈ list_of_durations
  · rw [highest_valid_qL, if_pos hmem] at hfind
    exact absurd (Option.some.inj hfind) (Ne.symm hne)
  · have hgt : 1/64 < rem := by
      rcases lt_or_eq_of_le h with h' | h'
      · exact h'
      · exact absurd (h' ▸ (by norm_num [list_of_durations] : (1/64 : ℚ) ∈ list_of_durations)) hmem
    rw [highest_valid_qL, if_neg hmem, list_of_durations] at hfind
    by_cases h2 : (2:ℚ) < rem
    · simp only [List.find?, h2, decide_True] at hfind
      obtain rfl := (Option.some.inj hfind).symm
      exact ⟨by norm_num, le_refl _, h2⟩
    · by_cases h1 : (1:ℚ) < rem
      · simp only [List.find?, h2, h1, decide_True, decide_False] at hfind
        obtain rfl := (Option.some.inj hfind).symm
        exact ⟨by norm_num, by norm_num, h1⟩
      · by_cases h3 : (1/2:ℚ) < rem
        · simp only [List.find?, h2, h1, h3, decide_True, decide_False] at hfind
          obtain rfl := (Option.some.inj hfind).symm
          exact ⟨by norm_num, by norm_num, h3⟩
        · by_cases h4 : (1/4:ℚ) < rem
          · simp only [List.find?, h2, h1, h3, h4, decide_True, decide_False] at hfind
            obtain rfl := (Option.some.inj hfind).symm
            exact ⟨by norm_num, by norm_num, h4⟩
          · by_cases h5 : (1/8:ℚ) < rem
            · simp only [List.find?, h2, h1, h3, h4, h5, decide_True, decide_False] at hfind
              obtain rfl := (Option.some.inj hfind).symm
              exact ⟨by norm_num, by norm_num, h5⟩
            · by_cases h6 : (1/16:ℚ) < rem
              · simp only [List.find?, h2, h1, h3, h4, h5, h6, decide_True, decide_False] at hfind
                obtain rfl := (Option.some.inj hfind).symm
                exact ⟨by norm_num, by norm_num, h6⟩
              · by_cases h7 : (1/32:ℚ) < rem
                · simp only [List.find?, h2, h1, h3, h4, h5, h6, h7, decide_True,
                    decide_False] at hfind
                  obtain rfl := (Option.some.inj hfind).symm
                  exact ⟨by norm_num, by norm_num, h7⟩
                · simp only [List.find?, h2, h1, h3, h4, h5, h6, h7, hgt, decide_True,
                    decide_False] at hfind
                  obtain rfl := (Option.some.inj hfind).symm
                  exact ⟨le_refl _, by norm_num, hgt⟩

/-- Measure used for the termination of `the_solver`: every recursive call
shrinks the remaining quarterLength by at least `1/64`. -/
def solverMeasure (q : ℚ) : ℕ := (⌈q * 64⌉).toNat

theorem solverMeasure_sub_lt {q d : ℚ} (hd : 1/64 ≤ d) (hdq : d < q) :
    solverMeasure (q - d) < solverMeasure q := by
  have h1 : (q - d) * 64 ≤ q * 64 - 1 := by nlinarith
  have h2 : ⌈(q - d) * 64⌉ ≤ ⌈q * 64 - (1:ℤ)⌉ := Int.ceil_le_ceil (by push_cast; linarith)
  rw [Int.ceil_sub_int] at h2
  have h3 : (1:ℤ) ≤ ⌈q * 64⌉ := by
    have : (1:ℚ) ≤ q * 64 := by nlinarith
    exact Int.le_ceil_iff.mpr (by push_cast; linarith)
  unfold solverMeasure
  omega

/-- `the_solver` from `fill_space_between_offsets` in
`src/analytic_engine.py`.  The `raise` branch (negative remainder) is
modelled as `none`. -/
def the_solver (qL_remains : ℚ) : Option (List ℚ) :=
  if qL_remains = 4 then some [4]
  else if hrange : qL_remains < 4 ∧ 0 ≤ qL_remains then
    if qL_remains < 1/64 then some [qL_remains]
    else
      match hfind : highest_valid_qL qL_remains with
      | none => none
      | some possible_finish =>
        if heq : possible_finish = qL_remains then some [qL_remains]
        else
          match the_solver (qL_remains - possible_finish) with
          | none => none
          | some rest => some (possible_finish :: rest)
  else if hgt : 4 < qL_remains then
    match the_solver (qL_remains - 4) with
    | none => none
    | some rest => some (4 :: rest)
  else none
termination_by solverMeasure qL_remains
decreasing_by
  · rename_i hlt
    have hspec := highest_valid_qL_of_ne hfind heq (not_lt.mp hlt)
    exact solverMeasure_sub_lt hspec.1 hspec.2.2
  · exact solverMeasure_sub_lt (by norm_num) hgt

/-- `fill_space_between_offsets` from `src/analytic_engine.py`:
`(result[0], result[1:])` of `the_solver (end_o - start_o)`. -/
def fill_space_between_offsets (start_o end_o : ℚ) : Option (ℚ × List ℚ) :=
  match the_solver (end_o - start_o) with
  | some (x :: rest) => some (x, rest)
  | some [] => none
  | none => none

theorem highest_valid_qL_isSome {rem : ℚ} (h : 0 < rem) : (highest_valid_qL rem).isSome := by
  unfold highest_valid_qL
  split_ifs with hmem
  · rfl
  · have h0 : (0:ℚ) ∈ list_of_durations := by norm_num [list_of_durations]
    exact List.find?_isSome.mpr ⟨0, h0, by simpa using h⟩

theorem the_solver_spec (q : ℚ) (hq : 0 ≤ q) :
    ∃ l, the_solver q = some l ∧ l ≠ [] ∧ l.sum = q ∧ ∀ x ∈ l, x ≤ 4 := by
  induction q using the_solver.induct with
  | case1 =>
      exact ⟨[4], by rw [the_solver.eq_def]; simp, by simp, by simp, by simp⟩
  | case2 q hne hrange hlt =>
      refine ⟨[q], ?_, by simp, by simp, ?_⟩
      · rw [the_solver.eq_def]
        simp only [if_neg hne, dif_pos hrange, if_pos hlt]
      · intro x hx
        rw [List.mem_singleton] at hx
        subst hx
        linarith [hrange.1]
  | case3 q hne hrange hlt hfind =>
      exfalso
      have hpos : (0:ℚ) < q := by linarith [not_lt.mp hlt]
      have := highest_valid_qL_isSome hpos
      rw [hfind] at this
      simp at this
  | case4 q hne hrange hlt hfind =>
      refine ⟨[q], ?_, by simp, by simp, ?_⟩
      · rw [the_solver.eq_def]
        simp only [if_neg hne, dif_pos hrange, if_neg hlt]
        split
        · rename_i h'
          rw [hfind] at h'
          exact Option.noConfusion h'
        · rename_i pf' h'
          rw [hfind] at h'
          obtain rfl := Option.some.inj h'
          simp
      · intro x hx
        rw [List.mem_singleton] at hx
        subst hx
        linarith [hrange.1]
  | case5 q hne hrange hlt pf hfind heq hnone ih =>
      exfalso
      have hspec := highest_valid_qL_of_ne hfind (by exact fun e => heq e) (not_lt.mp hlt)
      obtain ⟨l, hl, -, -, -⟩ := ih (by linarith [hspec.2.2])
      rw [hnone] at hl
      exact Option.noConfusion hl
  | case6 q hne hrange hlt pf hfind heq rest hrest ih =>
      have hspec := highest_valid_qL_of_ne hfind (by exact fun e => heq e) (not_lt.mp hlt)
      obtain ⟨l, hl, -, hsum, hbound⟩ := ih (by linarith [hspec.2.2])
      rw [hrest] at hl
      obtain rfl := Option.some.inj hl
      refine ⟨pf :: rest, ?_, by simp, ?_, ?_⟩
      · rw [the_solver.eq_def]
        simp only [if_neg hne, dif_pos hrange, if_neg hlt]
        split
        · rename_i h'
          rw [hfind] at h'
          exact Option.noConfusion h'
        · rename_i pf' h'
          rw [hfind] at h'
          obtain rfl := Option.some.inj h'
          rw [dif_neg heq, hrest]
      · rw [List.sum_cons, hsum]
        ring
      · intro x hx
        rcases List.mem_cons.mp hx with rfl | hx
        · linarith [hspec.2.1]
        · exact hbound x hx
  | case7 q hne hrange hgt hnone ih =>
      exfalso
      obtain ⟨l, hl, -, -, -⟩ := ih (by linarith)
      rw [hnone] at hl
      exact Option.noConfusion hl
  | case8 q hne hrange hgt rest hrest ih =>
      obtain ⟨l, hl, -, hsum, hbound⟩ := ih (by linarith)
      rw [hrest] at hl
      obtain rfl := Option.some.inj hl
      refine ⟨4 :: rest, ?_, by simp, ?_, ?_⟩
      · rw [the_solver.eq_def]
        simp only [if_neg hne, dif_neg hrange, dif_pos hgt, hrest]
      · rw [List.sum_cons, hsum]
        ring
      · intro x hx
        rcases List.mem_cons.mp hx with rfl | hx
        · norm_num
        · exact hbound x hx
  | case9 q hne hrange hgt =>
      exfalso
      rcases not_and_or.mp hrange with h | h
      · exact hne (le_antisymm (not_lt.mp hgt) (not_lt.mp h))
      · exact h hq

/-! The duplicated copy: `LilyPondExperiment.fill_space_between_offsets`
from `src/controllers/experimenter.py` (lines 1233-1293).  Its helpers
`highest_valid_ql` and `the_solver` are re-embedded verbatim under
`lily_`-prefixed names so the two copies can be compared. -/

/-- `list_of_durations` inside `LilyPondExperiment.fill_space_between_offsets`
(`src/controllers/experimenter.py`). -/
def lily_list_of_durations : List ℚ := [2, 1, 1/2, 1/4, 1/8, 1/16, 1/32, 1/64, 0]

/-- `highest_valid_ql` inside `LilyPondExperiment.fill_space_between_offsets`. -/
def lily_highest_valid_ql (rem : ℚ) : Option ℚ :=
  if rem ∈ lily_list_of_durations then some rem
  else lily_list_of_durations.find? (fun dur => dur < rem)

theorem lily_highest_valid_ql_eq (rem : ℚ) : lily_highest_valid_ql rem = highest_valid_qL rem :=
  rfl

/-- `the_solver` inside `LilyPondExperiment.fill_space_between_offsets`.
The `raise RuntimeError` branch is modelled as `none`. -/
def lily_the_solver (ql_remains : ℚ) : Option (List ℚ) :=
  if ql_remains = 4 then some [4]
  else if hrange : ql_remains < 4 ∧ 0 ≤ ql_remains then
    if ql_remains < 1/64 then some [ql_remains]
    else
      match hfind : lily_highest_valid_ql ql_remains with
      | none => none
      | some possible_finish =>
        if heq : possible_finish = ql_remains then some [ql_remains]
        else
          match lily_the_solver (ql_remains - possible_finish) with
          | none => none
          | some rest => some (possible_finish :: rest)
  else if hgt : 4 < ql_remains then
    match lily_the_solver (ql_remains - 4) with
    | none => none
    | some rest => some (4 :: rest)
  else none
termination_by solverMeasure ql_remains
decreasing_by
  · rename_i hlt
    rw [lily_highest_valid_ql_eq] at hfind
    have hspec := highest_valid_qL_of_ne hfind heq (not_lt.mp hlt)
    exact solverMeasure_sub_lt hspec.1 hspec.2.2
  · exact solverMeasure_sub_lt (by norm_num) hgt

/-- `LilyPondExperiment.fill_space_between_offsets` from
`src/controllers/experimenter.py`. -/
def lily_fill_space_between_offsets (start_o end_o : ℚ) : Option (ℚ × List ℚ) :=
  match lily_the_solver (end_o - start_o) with
  | some (x :: rest) => some (x, rest)
  | some [] => none
  | none => none

theorem lily_the_solver_eq (q : ℚ) : lily_the_solver q = the_solver q := by
  have h : lily_the_solver = the_solver := by
    with_unfolding_all rfl
  rw [h]

/-- C10: the two duplicated copies of `fill_space_between_offsets` (the
module-level function in `analytic_engine.py` and the static method of
`LilyPondExperiment` in `controllers/experimenter.py`) agree on every input
pair with `end_o ≥ start_o`, and the 2-tuple `(first, fillers)` they return
has durations summing exactly to `end_o - start_o`, each at most `4.0`. -/
theorem fill_space_between_offsets_equiv_and_sum (start_o end_o : ℚ)
    (h : start_o ≤ end_o) :
    lily_fill_space_between_offsets start_o end_o = fill_space_between_offsets start_o end_o ∧
      ∃ first fillers, fill_space_between_offsets start_o end_o = some (first, fillers) ∧
        first + fillers.sum = end_o - start_o ∧
        first ≤ 4 ∧ ∀ x ∈ fillers, x ≤ 4 := by
  obtain ⟨l, hl, hne, hsum, hbound⟩ := the_solver_spec (end_o - start_o) (by linarith)
  rcases l with - | ⟨x, rest⟩
  · exact absurd rfl hne
  · refine ⟨?_, x, rest, ?_, ?_, ?_, ?_⟩
    · unfold lily_fill_space_between_offsets fill_space_between_offsets
      rw [lily_the_solver_eq]
    · unfold fill_space_between_offsets
      rw [hl]
    · rw [List.sum_cons] at hsum
      linarith [hsum]
    · exact hbound x (List.mem_cons_self x rest)
    · exact fun y hy => hbound y (List.mem_cons_of_mem x hy)

/-- Witness for `fill_space_between_offsets_equiv_and_sum` at
`start_o = 0`, `end_o = 9/2` (4.5 quarterLengths to fill). -/
theorem fill_space_between_offsets_equiv_and_sum_witness :
    (0:ℚ) ≤ 9/2 ∧
      (lily_fill_space_between_offsets 0 (9/2) = fill_space_between_offsets 0 (9/2) ∧
        ∃ first fillers, fill_space_between_offsets 0 (9/2) = some (first, fillers) ∧
          first + fillers.sum = 9/2 - 0 ∧
          first ≤ 4 ∧ ∀ x ∈ fillers, x ≤ 4) :=
  ⟨by norm_num, fill_space_between_offsets_equiv_and_sum 0 (9/2) (by norm_num)⟩

/-! ## The n-gram recording block of `vis_these_parts`

Embedding of the "Process this moment for triangles" block of
`vis_these_parts` (`src/analytic_engine.py`, lines 504-555).  The
`interval_history` list holds either `interval.Interval` objects (opaque
payloads here) or the literal string `'rest'` recorded when a moment had a
Rest in either part. -/

/-- An entry of `interval_history` in `vis_these_parts`: either the string
`'rest'` or an Interval (opaque payload). -/
inductive Moment where
  | rest : Moment
  | itv : ℤ → Moment
deriving DecidableEq

/-- The inner `for i in xrange((-1*n), 0)` loop of the n-gram block: walk
the given moments left to right, breaking out (`none`) at the first
`'rest'`, otherwise collecting every moment into `list_of_intervals`. -/
def collectNonRest : List Moment → Option (List Moment)
  | [] => some []
  | Moment.rest :: _ => none
  | Moment.itv v :: rest => (collectNonRest rest).map (Moment.itv v :: ·)

/-- The n-gram recording block of `vis_these_parts`
(`src/analytic_engine.py`, lines 513-555): for each `n` in
`find_these_ns`, skip (`continue`) if the history is shorter than `n`;
otherwise examine the last `n` entries (`interval_history[-n:]`) and record
an n-gram of exactly those moments unless one of them is `'rest'`. -/
def ngram_block (interval_history : List Moment) (find_these_ns : List ℕ) :
    List (List Moment) :=
  find_these_ns.filterMap (fun n =>
    if interval_history.length < n then none
    else collectNonRest (interval_history.drop (interval_history.length - n)))

theorem collectNonRest_some {l l' : List Moment} (h : collectNonRest l = some l') :
    l' = l ∧ Moment.rest ∉ l' := by
  induction l generalizing l' with
  | nil =>
      rw [collectNonRest] at h
      obtain rfl := Option.some.inj h
      exact ⟨rfl, by simp⟩
  | cons m rest ih =>
      cases m with
      | rest => exact Option.noConfusion h
      | itv v =>
          rw [collectNonRest] at h
          cases hrec : collectNonRest rest with
          | none => rw [hrec] at h; exact Option.noConfusion h
          | some tail =>
              rw [hrec] at h
              obtain rfl := Option.some.inj h.symm
              obtain ⟨rfl, hnr⟩ := ih hrec
              refine ⟨rfl, ?_⟩
              intro hmem
              rcases List.mem_cons.mp hmem with hh | hh
              · exact Moment.noConfusion hh
              · exact hnr hh

/-- The legacy-engine half of C2: in `vis_these_parts`, a recorded n-gram
never contains a moment recorded as `'rest'` — the `'rest'` marker acts as
a terminator for n-gram formation. -/
theorem ngram_block_no_rest (interval_history : List Moment) (find_these_ns : List ℕ)
    (ng : List Moment) (h : ng ∈ ngram_block interval_history find_these_ns) :
    Moment.rest ∉ ng := by
  rw [ngram_block, List.mem_filterMap] at h
  obtain ⟨n, -, hn⟩ := h
  by_cases hlen : interval_history.length < n
  · rw [if_pos hlen] at hn
    exact Option.noConfusion hn
  · rw [if_neg hlen] at hn
    exact (collectNonRest_some hn).2

/-! ## `OverBassIndexer.__init__`

Embedding of `src/vis/analyzers/indexers/over_bass.py`, lines 55-91.  The
pandas `DataFrame` given as `score` is modelled by what `__init__`
observes of it: the top-level indexer-name keys, each with its list of
column labels.  The voices of a table are its columns, labelled
`'0', '1', …` by position. -/

/-- Error message constant `_WRONG_HORIZ` of `OverBassIndexer`. -/
def _WRONG_HORIZ : String := "horizontal setting must be a voice present in the piece"

/-- Error message constant `_WRONG_TYPE` of `OverBassIndexer`. -/
def _WRONG_TYPE : String := "Type given is not found"

/-- Settings dict accepted by `OverBassIndexer.__init__`; both keys are
optional (`'type'` defaults to `'notes'`). -/
structure OBSettings where
  type? : Option String
  horizontal? : Option ℤ

/-- Key lookup in the modelled DataFrame (Python `score[key]` /
`key in score`). -/
def oblookup (score : List (String × List String)) (key : String) : Option (List String) :=
  (score.find? (fun p => p.1 = key)).map Prod.snd

/-- The state established by a successful `OverBassIndexer.__init__`. -/
structure OBInit where
  horizontal_voice : ℤ
  horiz_columns : List String
deriving DecidableEq

/-- The `types` dict of `OverBassIndexer.__init__`. -/
def obtypes : List (String × String) :=
  [("intervals", "interval.HorizontalIntervalIndexer"),
   ("notes", "noterest.NoteRestIndexer")]

/-- `OverBassIndexer.__init__` from `src/vis/analyzers/indexers/over_bass.py`:
resolve the `'type'` setting through the `types` dict and require the
matching table in `score` (else `RuntimeError(_WRONG_TYPE)`); default the
`'horizontal'` setting to the last column index, or reject it with
`RuntimeError(_WRONG_HORIZ)` only when it exceeds the last column index;
finally access `score['interval.IntervalIndexer']` (a Python `KeyError`
when absent, modelled as a distinct error). -/
def overBassInit (score : List (String × List String)) (settings : OBSettings) :
    Except String OBInit :=
  let type := settings.type?.getD "notes"
  match (obtypes.find? (fun p => p.1 = type)).map Prod.snd with
  | none => Except.error _WRONG_TYPE
  | some tableName =>
    match oblookup score tableName with
    | none => Except.error _WRONG_TYPE
    | some horiz_columns =>
      let hres : Except String ℤ :=
        match settings.horizontal? with
        | none => Except.ok ((horiz_columns.length : ℤ) - 1)
        | some h =>
            if h > (horiz_columns.length : ℤ) - 1 then Except.error _WRONG_HORIZ
            else Except.ok h
      match hres with
      | Except.error e => Except.error e
      | Except.ok hv =>
        match oblookup score "interval.IntervalIndexer" with
        | none => Except.error "KeyError: interval.IntervalIndexer"
        | some _ => Except.ok ⟨hv, horiz_columns⟩

theorem overBassInit_notes_unfold (score : List (String × List String))
    (cols vcols : List String) (h? : Option ℤ)
    (hnr : oblookup score "noterest.NoteRestIndexer" = some cols)
    (hvt : oblookup score "interval.IntervalIndexer" = some vcols) :
    overBassInit score ⟨none, h?⟩ =
      match h? with
      | none => Except.ok ⟨(cols.length : ℤ) - 1, cols⟩
      | some h =>
          if h > (cols.length : ℤ) - 1 then Except.error _WRONG_HORIZ
          else Except.ok ⟨h, cols⟩ := by
  have htype : ((obtypes.find? (fun p => p.1 = "notes")).map
      Prod.snd) = some "noterest.NoteRestIndexer" := by rfl
  dsimp only [overBassInit, Option.getD]
  rw [htype]
  dsimp only
  rw [hnr]
  dsimp only
  cases h? with
  | none =>
      rw [hvt]
  | some h =>
      by_cases hgt : h > (cols.length : ℤ) - 1
      · simp only [if_pos hgt]
      · simp only [if_neg hgt]
        rw [hvt]

/-- C7 (amended): with the `'type'` setting absent (default `'notes'`), a
noterest table, and an interval table present, `OverBassIndexer.__init__`
assigns the last voice when `'horizontal'` is absent, raises
`RuntimeError(_WRONG_HORIZ)` exactly when the `'horizontal'` value exceeds
the last voice index, and accepts any value not exceeding it — including
negative values that denote no voice of the piece. -/
theorem overBassInit_horizontal_spec (score : List (String × List String))
    (cols vcols : List String)
    (hnr : oblookup score "noterest.NoteRestIndexer" = some cols)
    (hvt : oblookup score "interval.IntervalIndexer" = some vcols) :
    overBassInit score ⟨none, none⟩ = Except.ok ⟨(cols.length : ℤ) - 1, cols⟩ ∧
      (∀ h : ℤ, (cols.length : ℤ) - 1 < h →
        overBassInit score ⟨none, some h⟩ = Except.error _WRONG_HORIZ) ∧
      (∀ h : ℤ, h ≤ (cols.length : ℤ) - 1 →
        overBassInit score ⟨none, some h⟩ = Except.ok ⟨h, cols⟩) := by
  refine ⟨?_, ?_, ?_⟩
  · rw [overBassInit_notes_unfold score cols vcols none hnr hvt]
  · intro h hgt
    rw [overBassInit_notes_unfold score cols vcols (some h) hnr hvt]
    simp only [if_pos hgt]
  · intro h hle
    rw [overBassInit_notes_unfold score cols vcols (some h) hnr hvt]
    simp only [if_neg (not_lt.mpr hle)]

/-- A two-voice score as `OverBassIndexer.__init__` sees it: a noterest
table with voices `'0'` and `'1'` and an interval table. -/
def obScoreExample : List (String × List String) :=
  [("noterest.NoteRestIndexer", ["0", "1"]),
   ("interval.IntervalIndexer", ["0,1"])]

/-- C7 counterexample: `'horizontal' = -1` denotes no voice of the
two-voice piece (its voices are `0` and `1`), yet `OverBassIndexer.__init__`
does not raise — it succeeds and stores `-1`. -/
theorem overBassInit_neg_horizontal_accepted :
    (∀ i : ℕ, i < 2 → (-1 : ℤ) ≠ (i : ℤ)) ∧
      overBassInit obScoreExample ⟨none, some (-1)⟩ =
        Except.ok ⟨-1, ["0", "1"]⟩ := by
  constructor
  · decide
  · rfl

/-- Witness for `overBassInit_horizontal_spec` on the concrete two-voice
score: `'horizontal'` absent yields the last voice `1`; `'horizontal' = 7`
is rejected; `'horizontal' = 0` is accepted. -/
theorem overBassInit_horizontal_spec_witness :
    oblookup obScoreExample "noterest.NoteRestIndexer" = some ["0", "1"] ∧
      oblookup obScoreExample "interval.IntervalIndexer" = some ["0,1"] ∧
      (overBassInit obScoreExample ⟨none, none⟩ =
          Except.ok ⟨(["0", "1"].length : ℤ) - 1, ["0", "1"]⟩ ∧
        (∀ h : ℤ, (["0", "1"].length : ℤ) - 1 < h →
          overBassInit obScoreExample ⟨none, some h⟩ = Except.error _WRONG_HORIZ) ∧
        (∀ h : ℤ, h ≤ (["0", "1"].length : ℤ) - 1 →
          overBassInit obScoreExample ⟨none, some h⟩ = Except.ok ⟨h, ["0", "1"]⟩)) :=
  ⟨rfl, rfl, overBassInit_horizontal_spec obScoreExample ["0", "1"] ["0,1"] rfl rfl⟩

namespace SpecModel

/-!
Modelled from the spec: the `NewNGramIndexer`
(`vis/analyzers/indexers/new_ngram.py`) is not under `src/` — only its
test suite (`src/vis/tests/test_new_ngram.py`) is.  The definitions in
this namespace model the WindowBuilder of spec §4.3 with the Combiner
conventions of §4.2 and the configuration of §6: the indexer aligns the
vertical and the horizontal series on the sorted union of their offsets,
forward-fills vertical observations, substitutes the configured continuer
token for a missing horizontal observation, discards entirely any window
in which a vertical or horizontal slot equals a configured terminator
token (resuming after the terminator occurrence), and at end-of-stream
shortfall repeats the last available vertical token to pad the window —
a shortfall window is emitted when the horizontal voice still has an
observation at the final offset, otherwise the scan ends.
-/

/-- `optionAll` collects a list of optional tokens, failing if any is
missing. -/
def optionAll {α : Type} : List (Option α) → Option (List α)
  | [] => some []
  | none :: _ => none
  | some a :: rest => (optionAll rest).map (a :: ·)

/-- Modelled from the spec (§4.3): document order of a window's slots —
vertical, horizontal, vertical, …, vertical. -/
def interleave : List String → List String → List String
  | [], _ => []
  | [v], _ => [v]
  | v :: vs, [] => v :: interleave vs []
  | v :: vs, h :: hs => v :: h :: interleave vs hs

/-- Modelled from the spec (§2, §4.1): the sorted union of all per-voice
offsets. -/
def unionIndex (vs hs : List (ℚ × String)) : List ℚ :=
  List.insertionSort (· ≤ ·) ((vs.map Prod.fst ++ hs.map Prod.fst).dedup)

/-- Modelled from the spec (glossary, "Forward-fill"): a voice's most
recently observed token at or before the given offset. -/
def ffillAt (vs : List (ℚ × String)) (o : ℚ) : Option String :=
  ((vs.filter (fun p => p.1 ≤ o)).map Prod.snd).getLast?

/-- An exact horizontal observation at the given offset, if any. -/
def obsAt (hs : List (ℚ × String)) (o : ℚ) : Option String :=
  (hs.find? (fun p => p.1 = o)).map Prod.snd

/-- A window emitted by the modelled indexer: the offset of its first
vertical token, its `n` vertical slots and its `n-1` horizontal slots. -/
structure SpecWindow where
  offset : ℚ
  verts : List String
  horizs : List String
deriving DecidableEq

/-- Plain-mode rendering (§4.4): slots joined by single spaces in document
order. -/
def render (w : SpecWindow) : String :=
  " ".intercalate (interleave w.verts w.horizs)

/-- Modelled from the spec (§4.3): the `n` vertical slots of the window
anchored at union position `i`; slot positions past the end of the stream
are clamped so the last available vertical token is repeated. -/
def specVerts (vs : List (ℚ × String)) (P : List ℚ) (n i : ℕ) : Option (List String) :=
  optionAll ((List.range n).map (fun j => ffillAt vs (P.getD (min (i + j) (P.length - 1)) 0)))

/-- Modelled from the spec (§4.3): the `n-1` horizontal slots of the window
anchored at union position `i`; a gap with no horizontal observation is
filled with the continuer token. -/
def specHorizs (hs : List (ℚ × String)) (cont : String) (P : List ℚ) (n i : ℕ) : List String :=
  (List.range (n - 1)).map
    (fun j => (obsAt hs (P.getD (min (i + j) (P.length - 1)) 0)).getD cont)

/-- Modelled from the spec (§4.3): the window anchored at union position
`i`, or `none` when it is discarded.  A window is emitted when its
vertical slots are all available (forward-fill has begun), it either fits
fully before the end of the stream or the horizontal voice still has an
observation at the final offset (shortfall padding), and no slot equals a
configured terminator token. -/
def specWindowAt (vs hs : List (ℚ × String)) (n : ℕ) (terminator : List String)
    (cont : String) (P : List ℚ) (i : ℕ) : Option SpecWindow :=
  match specVerts vs P n i with
  | none => none
  | some verts =>
      let horizs := specHorizs hs cont P n i
      if (i + n - 1 < P.length ∨ (obsAt hs (P.getD (P.length - 1) 0)).isSome) ∧
          (∀ s ∈ interleave verts horizs, s ∉ terminator)
      then some ⟨P.getD i 0, verts, horizs⟩
      else none

/-- Modelled from the spec (§4.3): all windows of the run, one candidate
anchor per union position, in offset order. -/
def specWindows (vs hs : List (ℚ × String)) (n : ℕ) (terminator : List String)
    (cont : String) : List SpecWindow :=
  let P := unionIndex vs hs
  (List.range P.length).filterMap (specWindowAt vs hs n terminator cont P)

/-- Modelled from the spec (§7): the `RuntimeError` message for a window
size below 1 (`NewNGramIndexer._N_VALUE_TOO_LOW`). -/
def _N_VALUE_TOO_LOW : String := "NewNGramIndexer requires an n value of 1 or greater"

/-- Modelled from the spec (§7): the `RuntimeError` message for missing
required settings (`NewNGramIndexer._MISSING_SETTINGS`). -/
def _MISSING_SETTINGS : String := "NewNGramIndexer is missing required settings"

/-- A validated configuration, producible only by `newNGramInit`. -/
structure NGConfig where
  n : ℤ
  vertical : List String
  horizontal : List String
  terminator : List String
  continuer : String
deriving DecidableEq

/-- Modelled from the spec (§4.3, §6, §7): `NewNGramIndexer.__init__`
validates its settings eagerly, before any scan: a missing `'n'` or
`'vertical'` setting raises `RuntimeError(_MISSING_SETTINGS)`; `n < 1`
raises `RuntimeError(_N_VALUE_TOO_LOW)`.  No partial result exists in the
error cases — the `Except.error` branch carries only the message. -/
def newNGramInit (n? : Option ℤ) (vertical? : Option (List String))
    (horizontal : List String) (terminator : List String) (continuer : String) :
    Except String NGConfig :=
  match n?, vertical? with
  | some n, some vertical =>
      if n < 1 then Except.error _N_VALUE_TOO_LOW
      else Except.ok ⟨n, vertical, horizontal, terminator, continuer⟩
  | _, _ => Except.error _MISSING_SETTINGS

theorem optionAll_length {α : Type} {l : List (Option α)} {l' : List α}
    (h : optionAll l = some l') : l'.length = l.length := by
  induction l generalizing l' with
  | nil =>
      rw [optionAll] at h
      obtain rfl := Option.some.inj h
      rfl
  | cons a rest ih =>
      cases a with
      | none => exact Option.noConfusion h
      | some x =>
          rw [optionAll] at h
          cases hr : optionAll rest with
          | none => rw [hr] at h; exact Option.noConfusion h
          | some tl =>
              rw [hr] at h
              dsimp only [Option.map] at h
              obtain rfl := (Option.some.inj h).symm
              simp [ih hr]

theorem specWindowAt_eq_some {vs hs : List (ℚ × String)} {n : ℕ}
    {term : List String} {cont : String} {P : List ℚ} {i : ℕ} {w : SpecWindow}
    (h : specWindowAt vs hs n term cont P i = some w) :
    ∃ verts, specVerts vs P n i = some verts ∧
      w = ⟨P.getD i 0, verts, specHorizs hs cont P n i⟩ ∧
      ∀ s ∈ interleave verts (specHorizs hs cont P n i), s ∉ term := by
  unfold specWindowAt at h
  cases hv : specVerts vs P n i with
  | none => rw [hv] at h; exact Option.noConfusion h
  | some verts =>
      rw [hv] at h
      dsimp only at h
      split_ifs at h with hc
      exact ⟨verts, rfl, (Option.some.inj h).symm, hc.2⟩

/-- C2: in the spec-modelled indexer, no emitted window has a vertical or
horizontal slot equal to a configured terminator token; on the concrete
run with verticals `A B C D E`, horizontals `a b c d` and terminator `C`,
the windows are emitted at offsets `0` and `3` (the window that would
contain `C` is discarded entirely and the scan resumes after it); and in
the legacy two-voice engine (`vis_these_parts`) no recorded n-gram
contains a moment recorded as `'rest'`. -/
theorem newNGram_terminator_exclusion :
    (∀ (vs hs : List (ℚ × String)) (n : ℕ) (term : List String) (cont : String)
        (w : SpecWindow), w ∈ specWindows vs hs n term cont →
        ∀ s ∈ interleave w.verts w.horizs, s ∉ term) ∧
    specWindows [(0, "A"), (1, "B"), (2, "C"), (3, "D"), (4, "E")]
        [(0, "a"), (1, "b"), (2, "c"), (3, "d")] 2 ["C"] "_" =
      [⟨0, ["A", "B"], ["a"]⟩, ⟨3, ["D", "E"], ["d"]⟩] ∧
    (∀ (hist : List Moment) (ns : List ℕ) (ng : List Moment),
        ng ∈ ngram_block hist ns → Moment.rest ∉ ng) := by
  refine ⟨?_, by decide, fun hist ns ng h => ngram_block_no_rest hist ns ng h⟩
  intro vs hs n term cont w hw s hsmem
  dsimp only [specWindows] at hw
  rw [List.mem_filterMap] at hw
  obtain ⟨i, -, hfi⟩ := hw
  obtain ⟨verts, -, rfl, hterm⟩ := specWindowAt_eq_some hfi
  exact hterm s hsmem

/-- Witness for `newNGram_terminator_exclusion`: the window at offset `0`
of the concrete terminator run, its slot `"A"`, and a concrete recorded
2-gram of the legacy engine. -/
theorem newNGram_terminator_exclusion_witness :
    ("A" ∉ ["C"]) ∧ Moment.rest ∉ [Moment.itv 0, Moment.itv 1] :=
  ⟨newNGram_terminator_exclusion.1
      [(0, "A"), (1, "B"), (2, "C"), (3, "D"), (4, "E")]
      [(0, "a"), (1, "b"), (2, "c"), (3, "d")] 2 ["C"] "_"
      ⟨0, ["A", "B"], ["a"]⟩ (by decide) "A" (by decide),
    newNGram_terminator_exclusion.2.2 [Moment.itv 0, Moment.itv 1] [2]
      [Moment.itv 0, Moment.itv 1] (by decide)⟩

/-- C4: every window emitted by the spec-modelled indexer has exactly `n`
vertical slots and `n-1` horizontal slots — an end-of-stream shortfall is
padded by repeating the last available vertical token, never an error; on
the concrete run with verticals `[A, B, C]`, horizontals `[a, b, c]` and
`n = 2`, the final window is `C c C`. -/
theorem newNGram_shortfall_padding :
    (∀ (vs hs : List (ℚ × String)) (n : ℕ) (term : List String) (cont : String)
        (w : SpecWindow), w ∈ specWindows vs hs n term cont →
        w.verts.length = n ∧ w.horizs.length = n - 1) ∧
    specWindows [(0, "A"), (1, "B"), (2, "C")] [(0, "a"), (1, "b"), (2, "c")] 2 [] "_" =
      [⟨0, ["A", "B"], ["a"]⟩, ⟨1, ["B", "C"], ["b"]⟩, ⟨2, ["C", "C"], ["c"]⟩] ∧
    render ⟨2, ["C", "C"], ["c"]⟩ = "C c C" := by
  refine ⟨?_, by decide, by decide⟩
  intro vs hs n term cont w hw
  dsimp only [specWindows] at hw
  rw [List.mem_filterMap] at hw
  obtain ⟨i, -, hfi⟩ := hw
  obtain ⟨verts, hv, rfl, -⟩ := specWindowAt_eq_some hfi
  constructor
  · have := optionAll_length hv
    simpa using this
  · simp [specHorizs]

/-- Witness for `newNGram_shortfall_padding`: the padded final window of
the concrete run has 2 vertical slots and 1 horizontal slot. -/
theorem newNGram_shortfall_padding_witness :
    (["C", "C"] : List String).length = 2 ∧ (["c"] : List String).length = 2 - 1 :=
  newNGram_shortfall_padding.1
    [(0, "A"), (1, "B"), (2, "C")] [(0, "a"), (1, "b"), (2, "c")] 2 [] "_"
    ⟨2, ["C", "C"], ["c"]⟩ (by decide)

/-- C5: in the spec-modelled indexer (no terminator configured), every
full window whose vertical slots are available is emitted — a gap in the
horizontal observations never causes a window to be dropped, the continuer
token being substituted instead; on the concrete run with verticals
`[A, B, C, D]` and horizontals `a@0`, `z@2`, the windows are
`A a B`, `B _ C`, `C z D`. -/
theorem newNGram_continuer_substitution :
    (∀ (vs hs : List (ℚ × String)) (n : ℕ) (cont : String) (i : ℕ)
        (verts : List String), 1 ≤ n →
        i + n - 1 < (unionIndex vs hs).length →
        specVerts vs (unionIndex vs hs) n i = some verts →
        (⟨(unionIndex vs hs).getD i 0, verts,
            specHorizs hs cont (unionIndex vs hs) n i⟩ : SpecWindow) ∈
          specWindows vs hs n [] cont) ∧
    (specWindows [(0, "A"), (1, "B"), (2, "C"), (3, "D")] [(0, "a"), (2, "z")]
        2 [] "_").map render = ["A a B", "B _ C", "C z D"] := by
  refine ⟨?_, by decide⟩
  intro vs hs n cont i verts hn hfull hverts
  dsimp only [specWindows]
  rw [List.mem_filterMap]
  refine ⟨i, List.mem_range.mpr (by omega), ?_⟩
  unfold specWindowAt
  rw [hverts]
  dsimp only
  rw [if_pos ⟨Or.inl hfull, fun s _ => List.not_mem_nil s⟩]

/-- Witness for `newNGram_continuer_substitution` at the concrete run's
anchor `i = 1`, whose horizontal slot is the continuer `_`. -/
theorem newNGram_continuer_substitution_witness :
    1 ≤ 2 ∧
      1 + 2 - 1 <
        (unionIndex [(0, "A"), (1, "B"), (2, "C"), (3, "D")] [(0, "a"), (2, "z")]).length ∧
      specVerts [(0, "A"), (1, "B"), (2, "C"), (3, "D")]
          (unionIndex [(0, "A"), (1, "B"), (2, "C"), (3, "D")] [(0, "a"), (2, "z")]) 2 1 =
        some ["B", "C"] ∧
      (⟨(unionIndex [(0, "A"), (1, "B"), (2, "C"), (3, "D")] [(0, "a"), (2, "z")]).getD 1 0,
          ["B", "C"],
          specHorizs [(0, "a"), (2, "z")] "_"
            (unionIndex [(0, "A"), (1, "B"), (2, "C"), (3, "D")] [(0, "a"), (2, "z")]) 2 1⟩ :
          SpecWindow) ∈
        specWindows [(0, "A"), (1, "B"), (2, "C"), (3, "D")] [(0, "a"), (2, "z")] 2 [] "_" :=
  ⟨by decide, by decide, by decide,
    newNGram_continuer_substitution.1 [(0, "A"), (1, "B"), (2, "C"), (3, "D")]
      [(0, "a"), (2, "z")] 2 "_" 1 ["B", "C"] (by decide) (by decide) (by decide)⟩

/-- C6: constructing the spec-modelled n-gram indexer with window size
`n < 1`, or with no vertical grouping configured, fails with a
`RuntimeError` immediately at construction — the result is an error
carrying only a message, so no partial result exists and no scan has
begun. -/
theorem newNGramInit_rejects_bad_config
    (n? : Option ℤ) (vertical? : Option (List String)) (horizontal : List String)
    (terminator : List String) (continuer : String)
    (hbad : (∃ n, n? = some n ∧ n < 1) ∨ vertical? = none) :
    ∃ msg, newNGramInit n? vertical? horizontal terminator continuer =
      Except.error msg := by
  rcases hbad with ⟨n, rfl, hn⟩ | rfl
  · cases vertical? with
    | none => exact ⟨_MISSING_SETTINGS, rfl⟩
    | some vertical =>
        refine ⟨_N_VALUE_TOO_LOW, ?_⟩
        simp only [newNGramInit, if_pos hn]
  · cases n? with
    | none => exact ⟨_MISSING_SETTINGS, rfl⟩
    | some n => exact ⟨_MISSING_SETTINGS, rfl⟩

/-- Witness for `newNGramInit_rejects_bad_config` at `n = 0` with a
vertical grouping given (the configuration of `test_init_3`). -/
theorem newNGramInit_rejects_bad_config_witness :
    ((∃ n : ℤ, (some (0:ℤ)) = some n ∧ n < 1) ∨ (some ["0,1"] : Option (List String)) = none) ∧
      ∃ msg, newNGramInit (some 0) (some ["0,1"]) [] [] "_" = Except.error msg :=
  ⟨Or.inl ⟨0, rfl, by norm_num⟩,
    newNGramInit_rejects_bad_config (some 0) (some ["0,1"]) [] [] "_"
      (Or.inl ⟨0, rfl, by norm_num⟩)⟩

end SpecModel

/-! ## `NGram.stringVersion`

Embedding of `NGram.stringVersion` from `src/intsec.py` (lines 139-211).
Python strings are modelled as `List Char`.  An `NGram` holds its
`_listOfIntervals` and the `_listOfMovements` computed by
`_calculateMovements` (the movement intervals themselves are produced by
music21 from the embedded notes, an external collaborator; here each
interval is just its observable data: `name`, `semiSimpleName` and
`direction`).  `stringVersion` reads `_listOfMovements[i]` under a
`try/except IndexError`, modelled with `List.get?`. -/

/-- The data of a `music21.interval.Interval` observed by
`NGram.stringVersion`. -/
structure IntervalTok where
  name : List Char
  semiSimpleName : List Char
  direction : ℤ
deriving DecidableEq

/-- The state of an `intsec.NGram` object used by `stringVersion`. -/
structure NGram where
  listOfIntervals : List IntervalTok
  listOfMovements : List IntervalTok
  heedQuality : Bool
deriving DecidableEq

/-- The `simpleOrCompound` argument; the source raises on any other
string, so only these two values occur. -/
inductive SimpleOrCompound
  | simple
  | compound
deriving DecidableEq

/-- The interval text chosen by `stringVersion` for one token:
`semiSimpleName` for `'simple'`, `name` for `'compound'`, with the
quality letter dropped (`thisInt[1:]`) when quality is not heeded. -/
def svName (soc : SimpleOrCompound) (heedQuality : Bool) (tok : IntervalTok) : List Char :=
  let thisInt := match soc with
    | SimpleOrCompound.simple => tok.semiSimpleName
    | SimpleOrCompound.compound => tok.name
  if heedQuality then thisInt else thisInt.drop 1

/-- One iteration of the `for i in xrange(len(self._listOfIntervals))`
loop of `stringVersion`: append a separating space when `post` is
nonempty, append the interval text, then, when `_listOfMovements[i]`
exists, append `' +'`, `' -'` or `' '` according to its direction followed
by the movement text. -/
def svStep (ng : NGram) (soc : SimpleOrCompound) (heedQuality : Bool)
    (post : List Char) (i : ℕ) : List Char :=
  let post := if post.length > 0 then post ++ [' '] else post
  let post := post ++ svName soc heedQuality (ng.listOfIntervals.getD i ⟨[], [], 0⟩)
  match ng.listOfMovements.get? i with
  | none => post
  | some thisMove =>
      let post := post ++ (if thisMove.direction = 1 then [' ', '+']
        else if thisMove.direction = -1 then [' ', '-'] else [' '])
      post ++ svName soc heedQuality thisMove

/-- `NGram.stringVersion` from `src/intsec.py`: the loop over all interval
indices starting from the empty string, with `heedQuality` defaulting to
the NGram's own setting when the argument is `None`. -/
def stringVersion (ng : NGram) (soc : SimpleOrCompound) (heedQuality? : Option Bool) :
    List Char :=
  (List.range ng.listOfIntervals.length).foldl
    (svStep ng soc (heedQuality?.getD ng.heedQuality)) []

/-- Python `label.split(' ')`: split on every single space, keeping empty
pieces. -/
def splitSpace : List Char → List (List Char)
  | [] => [[]]
  | c :: rest =>
    match splitSpace rest with
    | p :: ps => if c = ' ' then [] :: p :: ps else (c :: p) :: ps
    | [] => [[c]]

/-- Python `' '.join(pieces)`. -/
def joinSpace : List (List Char) → List Char
  | [] => []
  | [t] => t
  | t :: ts => t ++ ' ' :: joinSpace ts

theorem splitSpace_ne_nil (s : List Char) : splitSpace s ≠ [] := by
  cases s with
  | nil => simp [splitSpace]
  | cons c rest =>
      rw [splitSpace]
      cases splitSpace rest with
      | nil => simp
      | cons p ps =>
          by_cases hc : c = ' ' <;> simp [hc]

theorem joinSpace_splitSpace (s : List Char) : joinSpace (splitSpace s) = s := by
  induction s with
  | nil => rfl
  | cons c rest ih =>
      rw [splitSpace]
      cases hsp : splitSpace rest with
      | nil => exact absurd hsp (splitSpace_ne_nil rest)
      | cons p ps =>
          rw [hsp] at ih
          dsimp only
          by_cases hc : c = ' '
          · subst hc
            rw [if_pos rfl]
            show ' ' :: joinSpace (p :: ps) = ' ' :: rest
            rw [ih]
          · rw [if_neg hc]
            cases ps with
            | nil =>
                show c :: p = c :: rest
                rw [show joinSpace [p] = p from rfl] at ih
                rw [ih]
            | cons q qs =>
                show (c :: p) ++ ' ' :: joinSpace (q :: qs) = c :: rest
                rw [List.cons_append]
                rw [show p ++ ' ' :: joinSpace (q :: qs) = joinSpace (p :: q :: qs) from rfl, ih]

/-- The rendered label has no leading, trailing, or consecutive space
characters. -/
def noBadSpaces (l : List Char) : Prop :=
  (∀ c ∈ l.head?, c ≠ ' ') ∧ (∀ c ∈ l.getLast?, c ≠ ' ') ∧
    l.Chain' (fun a b => ¬(a = ' ' ∧ b = ' '))

/-- The movement text with its direction sign, as it appears between two
single spaces in the rendered label. -/
def svMoveTok (soc : SimpleOrCompound) (heedQuality : Bool) (mv : IntervalTok) : List Char :=
  (if mv.direction = 1 then ['+'] else if mv.direction = -1 then ['-'] else []) ++
    svName soc heedQuality mv

/-- The space-separated tokens contributed by loop iteration `i` of
`stringVersion`: the interval text, then the signed movement text when
`_listOfMovements[i]` exists. -/
def svItemToks (ng : NGram) (soc : SimpleOrCompound) (heedQuality : Bool) (i : ℕ) :
    List (List Char) :=
  svName soc heedQuality (ng.listOfIntervals.getD i ⟨[], [], 0⟩) ::
    (match ng.listOfMovements.get? i with
     | none => []
     | some mv => [svMoveTok soc heedQuality mv])

/-- All tokens contributed by the first `k` loop iterations. -/
def svToks (ng : NGram) (soc : SimpleOrCompound) (heedQuality : Bool) (k : ℕ) :
    List (List Char) :=
  (List.range k).flatMap (svItemToks ng soc heedQuality)

theorem svToks_succ (ng : NGram) (soc : SimpleOrCompound) (heedQuality : Bool) (k : ℕ) :
    svToks ng soc heedQuality (k + 1) =
      svToks ng soc heedQuality k ++ svItemToks ng soc heedQuality k := by
  rw [svToks, List.range_succ, List.flatMap_append, svToks]
  simp

theorem moveChunk_cons (d : ℤ) (nm : List Char) :
    (if d = 1 then [' ', '+'] else if d = -1 then [' ', '-'] else [' ']) ++ nm =
      ' ' :: ((if d = 1 then ['+'] else if d = -1 then ['-'] else []) ++ nm) := by
  split_ifs <;> rfl

theorem svStep_nil (ng : NGram) (soc : SimpleOrCompound) (heedQuality : Bool) (i : ℕ) :
    svStep ng soc heedQuality [] i = joinSpace (svItemToks ng soc heedQuality i) := by
  rw [svStep, svItemToks]
  dsimp only
  cases ng.listOfMovements.get? i with
  | none => rfl
  | some mv =>
      dsimp only
      rw [svMoveTok]
      split_ifs <;> simp_all [joinSpace]

theorem svStep_cons (ng : NGram) (soc : SimpleOrCompound) (heedQuality : Bool) (i : ℕ)
    {post : List Char} (hpost : post ≠ []) :
    svStep ng soc heedQuality post i =
      post ++ ' ' :: joinSpace (svItemToks ng soc heedQuality i) := by
  have hlen : post.length > 0 := List.length_pos.mpr hpost
  rw [svStep, svItemToks]
  dsimp only
  rw [if_pos hlen]
  cases ng.listOfMovements.get? i with
  | none =>
      dsimp only
      rw [show joinSpace [svName soc heedQuality (ng.listOfIntervals.getD i ⟨[], [], 0⟩)] =
        svName soc heedQuality (ng.listOfIntervals.getD i ⟨[], [], 0⟩) from rfl]
      simp
  | some mv =>
      dsimp only
      rw [svMoveTok]
      split_ifs <;> simp [joinSpace]

theorem joinSpace_append (a b : List (List Char)) (ha : a ≠ []) (hb : b ≠ []) :
    joinSpace (a ++ b) = joinSpace a ++ ' ' :: joinSpace b := by
  induction a with
  | nil => exact absurd rfl ha
  | cons t a' ih =>
      cases a' with
      | nil =>
          cases b with
          | nil => exact absurd rfl hb
          | cons q qs =>
              rw [show ([t] : List (List Char)) ++ q :: qs = t :: q :: qs from rfl]
              rw [show joinSpace (t :: q :: qs) = t ++ ' ' :: joinSpace (q :: qs) from rfl]
              rfl
      | cons t' a'' =>
          have h2 := ih (by simp)
          rw [show joinSpace (t :: t' :: a'' ++ b) =
            t ++ ' ' :: joinSpace (t' :: a'' ++ b) from rfl]
          rw [h2]
          rw [show joinSpace (t :: t' :: a'') = t ++ ' ' :: joinSpace (t' :: a'') from rfl]
          simp

theorem joinSpace_cons_ne_nil {t : List Char} {ts : List (List Char)} (ht : t ≠ []) :
    joinSpace (t :: ts) ≠ [] := by
  cases ts with
  | nil => exact ht
  | cons u us =>
      rw [show joinSpace (t :: u :: us) = t ++ ' ' :: joinSpace (u :: us) from rfl]
      simp

/-- The loop of `stringVersion` builds exactly the single-space join of
the document-order tokens, and that join is nonempty once at least one
iteration ran (provided the interval texts are nonempty). -/
theorem stringVersion_loop_eq (ng : NGram) (soc : SimpleOrCompound) (heedQuality : Bool)
    (hiv : ∀ iv ∈ ng.listOfIntervals, svName soc heedQuality iv ≠ []) :
    ∀ k, k ≤ ng.listOfIntervals.length →
      (List.range k).foldl (svStep ng soc heedQuality) [] =
          joinSpace (svToks ng soc heedQuality k) ∧
        (1 ≤ k → joinSpace (svToks ng soc heedQuality k) ≠ []) := by
  intro k
  induction k with
  | zero => exact fun _ => ⟨rfl, by omega⟩
  | succ k ih =>
      intro hk
      have hk' : k ≤ ng.listOfIntervals.length := Nat.le_of_succ_le hk
      obtain ⟨hfold, hne⟩ := ih hk'
      have hvk : svName soc heedQuality (ng.listOfIntervals.getD k ⟨[], [], 0⟩) ≠ [] := by
        have hklen : k < ng.listOfIntervals.length := hk
        rw [List.getD_eq_getElem _ _ hklen]
        exact hiv _ (List.getElem_mem hklen)
      constructor
      · rw [List.range_succ, List.foldl_append, List.foldl_cons, List.foldl_nil, hfold,
          svToks_succ]
        rcases Nat.eq_zero_or_pos k with rfl | hpos
        · rw [show svToks ng soc heedQuality 0 = [] from rfl, List.nil_append]
          exact svStep_nil ng soc heedQuality 0
        · have hne' := hne hpos
          have hts : svToks ng soc heedQuality k ≠ [] := by
            intro e
            rw [e] at hne'
            exact hne' rfl
          rw [joinSpace_append _ _ hts (by rw [svItemToks]; simp)]
          exact svStep_cons ng soc heedQuality k hne'
      · intro h1
        rw [svToks_succ]
        rcases Nat.eq_zero_or_pos k with rfl | hpos
        · rw [show svToks ng soc heedQuality 0 = [] from rfl, List.nil_append, svItemToks]
          exact joinSpace_cons_ne_nil hvk
        · have hne' := hne hpos
          have hts : svToks ng soc heedQuality k ≠ [] := by
            intro e
            rw [e] at hne'
            exact hne' rfl
          rw [joinSpace_append _ _ hts (by rw [svItemToks]; simp)]
          intro e
          exact List.cons_ne_nil ' ' _ (List.append_eq_nil.mp e).2

theorem mem_of_mem_head?_char {l : List Char} {c : Char} (h : c ∈ l.head?) : c ∈ l := by
  cases l with
  | nil => simp at h
  | cons a l =>
      rw [List.head?_cons, Option.mem_def] at h
      obtain rfl := Option.some.inj h.symm
      exact List.mem_cons_self _ _

theorem mem_of_mem_getLast?_char {l : List Char} {c : Char} (h : c ∈ l.getLast?) : c ∈ l := by
  obtain ⟨hne, rfl⟩ := List.mem_getLast?_eq_getLast h
  exact List.getLast_mem hne

theorem chain'_of_no_space {l : List Char} (h : ' ' ∉ l) :
    l.Chain' (fun a b => ¬(a = ' ' ∧ b = ' ')) := by
  induction l with
  | nil => exact List.chain'_nil
  | cons a l ih =>
      rw [List.chain'_cons']
      refine ⟨fun b hb hab => h ?_, ih (fun hm => h (List.mem_cons_of_mem a hm))⟩
      rw [hab.1]
      exact List.mem_cons_self ' ' l

theorem joinSpace_good (ts : List (List Char)) (h : ∀ t ∈ ts, t ≠ [] ∧ ' ' ∉ t) :
    noBadSpaces (joinSpace ts) := by
  induction ts with
  | nil =>
      exact ⟨by simp [joinSpace], by simp [joinSpace], by simp [joinSpace]⟩
  | cons t ts ih =>
      obtain ⟨htne, htsp⟩ := h t (List.mem_cons_self t ts)
      have hts : ∀ t' ∈ ts, t' ≠ [] ∧ ' ' ∉ t' := fun t' h' => h t' (List.mem_cons_of_mem t h')
      cases ts with
      | nil =>
          refine ⟨?_, ?_, chain'_of_no_space htsp⟩
          · exact fun c hc he => htsp (he ▸ mem_of_mem_head?_char hc)
          · exact fun c hc he => htsp (he ▸ mem_of_mem_getLast?_char hc)
      | cons u us =>
          obtain ⟨ihh, ihl, ihc⟩ := ih hts
          have hjne : joinSpace (u :: us) ≠ [] :=
            joinSpace_cons_ne_nil (hts u (List.mem_cons_self u us)).1
          rw [show joinSpace (t :: u :: us) = t ++ ' ' :: joinSpace (u :: us) from rfl]
          refine ⟨?_, ?_, ?_⟩
          · rw [List.head?_append_of_ne_nil t htne]
            exact fun c hc he => htsp (he ▸ mem_of_mem_head?_char hc)
          · rw [List.getLast?_append_of_ne_nil t (List.cons_ne_nil ' ' _)]
            rw [show (' ' :: joinSpace (u :: us)) = [' '] ++ joinSpace (u :: us) from rfl]
            rw [List.getLast?_append_of_ne_nil [' '] hjne]
            exact ihl
          · rw [List.chain'_append]
            refine ⟨chain'_of_no_space htsp, ?_, ?_⟩
            · rw [List.chain'_cons']
              exact ⟨fun b hb hab => (ihh b hb) hab.2, ihc⟩
            · intro x hx y hy hxy
              exact htsp (hxy.1 ▸ mem_of_mem_getLast?_char hx)

/-- C9: splitting the plain-mode label of `NGram.stringVersion` on single
spaces and re-joining the pieces with single spaces reproduces the label
exactly, and the label has no leading, trailing, or consecutive space
characters — provided every interval and movement text used (the music21
`name`/`semiSimpleName`, minus the quality letter when quality is not
heeded) is nonempty and free of spaces, as music21 interval names are. -/
theorem stringVersion_round_trip (ng : NGram) (soc : SimpleOrCompound)
    (heedQuality? : Option Bool)
    (hiv : ∀ iv ∈ ng.listOfIntervals,
      svName soc (heedQuality?.getD ng.heedQuality) iv ≠ [] ∧
        ' ' ∉ svName soc (heedQuality?.getD ng.heedQuality) iv)
    (hmv : ∀ mv ∈ ng.listOfMovements,
      svName soc (heedQuality?.getD ng.heedQuality) mv ≠ [] ∧
        ' ' ∉ svName soc (heedQuality?.getD ng.heedQuality) mv) :
    joinSpace (splitSpace (stringVersion ng soc heedQuality?)) =
        stringVersion ng soc heedQuality? ∧
      noBadSpaces (stringVersion ng soc heedQuality?) := by
  refine ⟨joinSpace_splitSpace _, ?_⟩
  have hloop := (stringVersion_loop_eq ng soc (heedQuality?.getD ng.heedQuality)
    (fun iv hm => (hiv iv hm).1) ng.listOfIntervals.length (le_refl _)).1
  rw [stringVersion, hloop]
  apply joinSpace_good
  intro t ht
  rw [svToks, List.mem_flatMap] at ht
  obtain ⟨i, hi, hti⟩ := ht
  rw [List.mem_range] at hi
  rw [svItemToks] at hti
  rcases List.mem_cons.mp hti with rfl | hti
  · rw [List.getD_eq_getElem _ _ hi]
    exact hiv _ (List.getElem_mem hi)
  · cases hm : ng.listOfMovements.get? i with
    | none => rw [hm] at hti; simp at hti
    | some mv =>
        rw [hm] at hti
        rw [List.mem_singleton] at hti
        subst hti
        have hgood := hmv mv (List.get?_mem hm)
        rw [svMoveTok]
        constructor
        · intro he
          exact hgood.1 (List.append_eq_nil.mp he).2
        · intro he
          rcases List.mem_append.mp he with hsign | hname
          · split_ifs at hsign <;> simp_all
          · exact hgood.2 hname

/-- Witness for `stringVersion_round_trip` at the 2-gram `M3 +M2 m3`
(compound, quality heeded): the music21 names are nonempty and space-free,
and the rendered label round-trips. -/
theorem stringVersion_round_trip_witness :
    (∀ iv ∈ (NGram.mk [⟨"M3".data, "M3".data, 1⟩, ⟨"m3".data, "m3".data, 1⟩]
        [⟨"M2".data, "M2".data, 1⟩] true).listOfIntervals,
      svName SimpleOrCompound.compound ((some true).getD true) iv ≠ [] ∧
        ' ' ∉ svName SimpleOrCompound.compound ((some true).getD true) iv) ∧
    (∀ mv ∈ (NGram.mk [⟨"M3".data, "M3".data, 1⟩, ⟨"m3".data, "m3".data, 1⟩]
        [⟨"M2".data, "M2".data, 1⟩] true).listOfMovements,
      svName SimpleOrCompound.compound ((some true).getD true) mv ≠ [] ∧
        ' ' ∉ svName SimpleOrCompound.compound ((some true).getD true) mv) ∧
    (joinSpace (splitSpace (stringVersion
          (NGram.mk [⟨"M3".data, "M3".data, 1⟩, ⟨"m3".data, "m3".data, 1⟩]
            [⟨"M2".data, "M2".data, 1⟩] true) SimpleOrCompound.compound (some true))) =
        stringVersion (NGram.mk [⟨"M3".data, "M3".data, 1⟩, ⟨"m3".data, "m3".data, 1⟩]
          [⟨"M2".data, "M2".data, 1⟩] true) SimpleOrCompound.compound (some true) ∧
      noBadSpaces (stringVersion
        (NGram.mk [⟨"M3".data, "M3".data, 1⟩, ⟨"m3".data, "m3".data, 1⟩]
          [⟨"M2".data, "M2".data, 1⟩] true) SimpleOrCompound.compound (some true))) :=
  ⟨by decide, by decide,
    stringVersion_round_trip _ SimpleOrCompound.compound (some true) (by decide) (by decide)⟩

/-! ## `visTheseParts` — the legacy two-voice aligner of `intsec.py`

Embedding of `visTheseParts` from `src/intsec.py` (lines 492-589).  A
music21 `Note` is modelled by what the function observes of it: its
`offset` (a rational) and its `pitch` (an opaque comparable value,
modelled as `ℤ`).  `xfn.getElementsByOffset(o)[0]` is the first note at
exactly offset `o`.  The loop starts at offset `0.0`, advances by the
counting interval `offsetInterval = 0.5`, and runs while the offset is at
most `max(hfn.highestOffset, lfn.highestOffset)`; for the nonnegative
offsets of a score, `highestOffset` is the maximum offset (0 for an empty
stream). -/

/-- A music21 Note as observed by `visTheseParts`. -/
structure PyNote where
  offset : ℚ
  pitch : ℤ
deriving DecidableEq

/-- `xfn.getElementsByOffset(o)[0]` — the first note at exactly offset
`o`, if any. -/
def getElementsByOffset (ns : List PyNote) (o : ℚ) : Option PyNote :=
  ns.find? (fun nt => nt.offset = o)

/-- The mutable state of the `visTheseParts` loop. -/
structure VtpState where
  mostRecentHigh : Option PyNote
  mostRecentLow : Option PyNote
  previousHighs : List PyNote
  previousLows : List PyNote
deriving DecidableEq

/-- The per-voice update test of `visTheseParts`: a note at this offset
updates the voice unless the most recent note exists and has the same
pitch (`not isinstance(mostRecentLow, note.Note) or lfnGEBO.pitch !=
mostRecentLow.pitch`). -/
def updFlag (hit mr : Option PyNote) : Bool :=
  match hit, mr with
  | some nt, some m => if nt.pitch = m.pitch then false else true
  | some _, none => true
  | none, _ => false

/-- The state after one iteration of the `visTheseParts` loop at
`thisOffset`: each voice with a fresh-pitch note at this exact offset
updates its most-recent note, pushing the old one onto its `previous`
list; a voice that did not update while the other did pushes its (still
current) most-recent note onto its `previous` list
(`lowMustUpdate`/`highMustUpdate` bookkeeping for melismas). -/
def vtpNewState (hfn lfn : List PyNote) (st : VtpState) (thisOffset : ℚ) : VtpState :=
  let lowHit := getElementsByOffset lfn thisOffset
  let highHit := getElementsByOffset hfn thisOffset
  let lowUpdated := updFlag lowHit st.mostRecentLow
  let highUpdated := updFlag highHit st.mostRecentHigh
  { mostRecentHigh := if highUpdated then highHit else st.mostRecentHigh
    mostRecentLow := if lowUpdated then lowHit else st.mostRecentLow
    previousHighs :=
      (if highUpdated then st.previousHighs ++ st.mostRecentHigh.toList
       else st.previousHighs) ++
        (if lowUpdated && !highUpdated then st.mostRecentHigh.toList else [])
    previousLows :=
      (if lowUpdated then st.previousLows ++ st.mostRecentLow.toList
       else st.previousLows) ++
        (if highUpdated && !lowUpdated then st.mostRecentLow.toList else []) }

/-- What `visTheseParts` records during one iteration: the vertical
interval (the pair of notes handed to `interval.Interval`) and, when both
`previous` lists already hold at least `n - 1 = 1` notes, the 2-gram made
of the previous pair and this interval. -/
structure VtpEmit where
  interval : Option PyNote × Option PyNote
  ngram : Option ((PyNote × PyNote) × (Option PyNote × Option PyNote))
deriving DecidableEq

/-- The recording of one iteration of `visTheseParts`: an interval is
counted exactly when one of the voices was updated at this offset
(`if lowUpdated or highUpdated`). -/
def vtpEmit? (hfn lfn : List PyNote) (st : VtpState) (thisOffset : ℚ) : Option VtpEmit :=
  let lowHit := getElementsByOffset lfn thisOffset
  let highHit := getElementsByOffset hfn thisOffset
  let lowUpdated := updFlag lowHit st.mostRecentLow
  let highUpdated := updFlag highHit st.mostRecentHigh
  if lowUpdated || highUpdated then
    let st' := vtpNewState hfn lfn st thisOffset
    some ⟨(st'.mostRecentLow, st'.mostRecentHigh),
      match st'.previousLows.getLast?, st'.previousHighs.getLast? with
      | some pl, some ph => some ((pl, ph), (st'.mostRecentLow, st'.mostRecentHigh))
      | _, _ => none⟩
  else none

/-- The `visTheseParts` loop over a list of offsets, collecting the
recorded moments tagged with the offset at which they were counted. -/
def vtpRun (hfn lfn : List PyNote) : VtpState → List ℚ → List (ℚ × VtpEmit)
  | _, [] => []
  | st, o :: rest =>
      match vtpEmit? hfn lfn st o with
      | none => vtpRun hfn lfn (vtpNewState hfn lfn st o) rest
      | some e => (o, e) :: vtpRun hfn lfn (vtpNewState hfn lfn st o) rest

/-- Python `max(a, b)` on rationals, written so that it evaluates by
kernel reduction. -/
def pymax (a b : ℚ) : ℚ :=
  if a ≤ b then b else a

theorem pymax_eq_max (a b : ℚ) : pymax a b = max a b := by
  rw [pymax]
  split_ifs with h
  · exact (max_eq_right h).symm
  · exact (max_eq_left (le_of_not_le h)).symm

/-- music21 `Stream.highestOffset` for the nonnegative offsets of a score
(0 for an empty stream). -/
def highestOffset (ns : List PyNote) : ℚ :=
  ns.foldl (fun a nt => pymax a nt.offset) 0

/-- The offsets visited by the `while thisOffset <= highestOffset` loop:
`0, 0.5, 1.0, …` up to the larger of the two parts' highest offsets. -/
def vtpOffsets (hfn lfn : List PyNote) : List ℚ :=
  let hi := pymax (highestOffset hfn) (highestOffset lfn)
  (List.range (⌊2 * hi⌋.toNat + 1)).map (fun (k : ℕ) => (k : ℚ) / 2)

/-- `visTheseParts` from `src/intsec.py`: run the loop from the empty
state over the visited offsets. -/
def visTheseParts (hfn lfn : List PyNote) : List (ℚ × VtpEmit) :=
  vtpRun hfn lfn ⟨none, none, [], []⟩ (vtpOffsets hfn lfn)

/-- The union of the two parts' offsets. -/
def allOffsets (hfn lfn : List PyNote) : List ℚ :=
  (hfn ++ lfn).map PyNote.offset

/-- The derived vertical token of a recorded moment: the interval between
the two notes (opaque music21 interval naming, modelled by the pitch
difference — equal differences give equal music21 interval names such as
`M3`). -/
def vertTok (iv : Option PyNote × Option PyNote) : Option ℤ :=
  match iv with
  | (some lo, some hi) => some (hi.pitch - lo.pitch)
  | _ => none

/-- The pitch pair of a recorded moment. -/
def pitchPair (iv : Option PyNote × Option PyNote) : Option ℤ × Option ℤ :=
  (iv.1.map PyNote.pitch, iv.2.map PyNote.pitch)

/-- The pitch pair held by a state. -/
def statePair (st : VtpState) : Option ℤ × Option ℤ :=
  (st.mostRecentLow.map PyNote.pitch, st.mostRecentHigh.map PyNote.pitch)

theorem updFlag_true_map_ne {hit mr : Option PyNote} (h : updFlag hit mr = true) :
    hit.map PyNote.pitch ≠ mr.map PyNote.pitch := by
  cases hit with
  | none => simp [updFlag] at h
  | some nt =>
      cases mr with
      | none => simp
      | some m =>
          rw [updFlag] at h
          split_ifs at h with he
          intro hc
          rw [Option.map, Option.map] at hc
          exact he (Option.some.inj hc)

theorem vtpEmit?_none_state {hfn lfn : List PyNote} {st : VtpState} {o : ℚ}
    (h : vtpEmit? hfn lfn st o = none) :
    statePair (vtpNewState hfn lfn st o) = statePair st := by
  rw [vtpEmit?] at h
  by_cases hl : updFlag (getElementsByOffset lfn o) st.mostRecentLow = true
  · rw [hl] at h
    simp at h
  · by_cases hh : updFlag (getElementsByOffset hfn o) st.mostRecentHigh = true
    · rw [hh] at h
      simp at h
    · rw [statePair, vtpNewState]
      dsimp only
      rw [Bool.not_eq_true] at hl hh
      rw [hl, hh]
      rfl

theorem vtpEmit?_some_state {hfn lfn : List PyNote} {st : VtpState} {o : ℚ} {e : VtpEmit}
    (h : vtpEmit? hfn lfn st o = some e) :
    pitchPair e.interval = statePair (vtpNewState hfn lfn st o) ∧
      statePair (vtpNewState hfn lfn st o) ≠ statePair st := by
  rw [vtpEmit?] at h
  by_cases hor : (updFlag (getElementsByOffset lfn o) st.mostRecentLow ||
      updFlag (getElementsByOffset hfn o) st.mostRecentHigh) = true
  · rw [if_pos hor] at h
    obtain rfl := Option.some.inj h.symm
    refine ⟨rfl, ?_⟩
    rcases Bool.or_eq_true_iff.mp hor with hl | hh
    · intro hc
      apply updFlag_true_map_ne hl
      have h1 := congrArg Prod.fst hc
      rw [statePair, statePair, vtpNewState] at h1
      dsimp only at h1
      rw [hl] at h1
      simpa using h1
    · intro hc
      apply updFlag_true_map_ne hh
      have h1 := congrArg Prod.snd hc
      rw [statePair, statePair, vtpNewState] at h1
      dsimp only at h1
      rw [hh] at h1
      simpa using h1
  · rw [if_neg hor] at h
    exact Option.noConfusion h

theorem vtpRun_pitchPair_chain (hfn lfn : List PyNote) :
    ∀ (offs : List ℚ) (st : VtpState),
      List.Chain' (fun a b => a ≠ b)
        (statePair st :: (vtpRun hfn lfn st offs).map (fun pe => pitchPair pe.2.interval)) := by
  intro offs
  induction offs with
  | nil => exact fun st => List.chain'_singleton _
  | cons o rest ih =>
      intro st
      rw [vtpRun]
      cases he : vtpEmit? hfn lfn st o with
      | none =>
          have hst := vtpEmit?_none_state he
          have := ih (vtpNewState hfn lfn st o)
          rw [hst] at this
          exact this
      | some e =>
          obtain ⟨hpe, hne⟩ := vtpEmit?_some_state he
          rw [List.map_cons]
          rw [List.chain'_cons]
          refine ⟨by rw [hpe]; exact fun hc => hne hc.symm, ?_⟩
          have := ih (vtpNewState hfn lfn st o)
          rw [← hpe] at this
          exact this

/-- C3 (amended): the legacy aligner suppresses only per-voice repeated
pitches, so the recorded combinations never repeat as *pitch pairs*: the
sequence of recorded (low, high) pitch pairs has no two equal adjacent
entries — every recorded moment reflects an actual pitch change in at
least one voice.  (The derived vertical token may still repeat, see the
counterexample.) -/
theorem visTheseParts_no_adjacent_equal_pairs (hfn lfn : List PyNote) :
    List.Chain' (fun a b => a ≠ b)
      ((visTheseParts hfn lfn).map (fun pe => pitchPair pe.2.interval)) := by
  have h := vtpRun_pitchPair_chain hfn lfn (vtpOffsets hfn lfn) ⟨none, none, [], []⟩
  rw [visTheseParts]
  exact (List.chain'_cons'.mp h).2

/-- C3 counterexample: parallel motion — low voice `48 → 50`, high voice
`52 → 54` at offsets `0` and `1/2` (e.g. C4-E4 to D4-F#4, both the
major third `M3`) — is *not* suppressed: the emitted vertical-token
sequence is `[M3, M3]`, two equal adjacent entries, because the duplicate
check compares per-voice pitches, not the derived vertical token. -/
theorem visTheseParts_adjacent_duplicate_tokens :
    ((visTheseParts [⟨0, 52⟩, ⟨1/2, 54⟩] [⟨0, 48⟩, ⟨1/2, 50⟩]).map
        (fun pe => vertTok pe.2.interval)) = [some 4, some 4] ∧
      ¬ List.Chain' (fun a b => a ≠ b)
        ((visTheseParts [⟨0, 52⟩, ⟨1/2, 54⟩] [⟨0, 48⟩, ⟨1/2, 50⟩]).map
          (fun pe => vertTok pe.2.interval)) := by
  have h : ((visTheseParts [⟨0, 52⟩, ⟨1/2, 54⟩] [⟨0, 48⟩, ⟨1/2, 50⟩]).map
      (fun pe => vertTok pe.2.interval)) = [some 4, some 4] := by
    norm_num [visTheseParts, vtpOffsets, highestOffset, pymax, Int.floor_one, List.range_succ,
      vtpRun, vtpEmit?, vtpNewState, updFlag, getElementsByOffset, List.find?, vertTok]
  refine ⟨h, ?_⟩
  rw [h]
  simp [List.chain'_cons]

/-- C1 counterexample: with the lower voice sounding at offsets `0` and
`1/4` and the higher voice at `0`, the offset `1/4` belongs to the union
of the series' offsets but yields no synchronized row: `visTheseParts`
only visits multiples of its counting interval `0.5`, so the only row is
at offset `0`. -/
theorem visTheseParts_misses_union_offset :
    ((visTheseParts [⟨0, 4⟩] [⟨0, 0⟩, ⟨1/4, 2⟩]).map Prod.fst = [0]) ∧
      (1/4 : ℚ) ∈ allOffsets [⟨0, 4⟩] [⟨0, 0⟩, ⟨1/4, 2⟩] ∧
      (1/4 : ℚ) ∉ ((visTheseParts [⟨0, 4⟩] [⟨0, 0⟩, ⟨1/4, 2⟩]).map Prod.fst) := by
  have hfl : ⌊(1 : ℚ)/2⌋ = 0 := by
    rw [Int.floor_eq_zero_iff]
    norm_num [Set.mem_Ico]
  have h : ((visTheseParts [⟨0, 4⟩] [⟨0, 0⟩, ⟨1/4, 2⟩]).map Prod.fst = [0]) := by
    norm_num [visTheseParts, vtpOffsets, highestOffset, pymax, List.range_succ, hfl,
      vtpRun, vtpEmit?, vtpNewState, updFlag, getElementsByOffset, List.find?]
  refine ⟨h, ?_, ?_⟩
  · norm_num [allOffsets]
  · rw [h]
    norm_num

/-- The forward-fill value of a voice just before instant `t`: its last
note sounding strictly before `t`. -/
def lastBefore (ns : List PyNote) (t : ℚ) : Option PyNote :=
  (ns.filter (fun nt => nt.offset < t)).getLast?

/-- Strictly increasing offsets. -/
def SortedOffsets (ns : List PyNote) : Prop :=
  List.Pairwise (fun a b => a.offset < b.offset) ns

/-- All offsets lie on the `0.5` counting grid. -/
def OnHalfGrid (ns : List PyNote) : Prop :=
  ∀ nt ∈ ns, ∃ k : ℕ, nt.offset = (k : ℚ) / 2

/-- No two consecutive notes of the voice carry the same pitch. -/
def NoAdjacentRepeats (ns : List PyNote) : Prop :=
  List.Chain' (fun a b => a.pitch ≠ b.pitch) ns

theorem getElementsByOffset_eq_none_iff (ns : List PyNote) (o : ℚ) :
    getElementsByOffset ns o = none ↔ ∀ nt ∈ ns, nt.offset ≠ o := by
  rw [getElementsByOffset, List.find?_eq_none]
  simp

theorem getElementsByOffset_mem {ns : List PyNote} {o : ℚ} {nt : PyNote}
    (h : getElementsByOffset ns o = some nt) : nt ∈ ns ∧ nt.offset = o :=
  ⟨List.mem_of_find?_eq_some h, by simpa using List.find?_some h⟩

/-- Splitting a sorted voice at a member: the notes before it are exactly
those with smaller offsets. -/
theorem sorted_split {ns : List PyNote} (hsort : SortedOffsets ns) {nt : PyNote}
    (hmem : nt ∈ ns) :
    ∃ pre post, ns = pre ++ nt :: post ∧
      ns.filter (fun x => x.offset < nt.offset) = pre ∧
      (∀ x ∈ pre, x.offset < nt.offset) ∧
      (∀ x ∈ post, nt.offset < x.offset) := by
  obtain ⟨pre, post, rfl⟩ := List.append_of_mem hmem
  rw [SortedOffsets, List.pairwise_append] at hsort
  obtain ⟨-, hpost, hcross⟩ := hsort
  have hpre : ∀ x ∈ pre, x.offset < nt.offset :=
    fun x hx => hcross x hx nt (List.mem_cons_self _ _)
  have hpost' : ∀ x ∈ post, nt.offset < x.offset :=
    (List.pairwise_cons.mp hpost).1
  refine ⟨pre, post, rfl, ?_, hpre, hpost'⟩
  have h1 : List.filter (fun x => decide (x.offset < nt.offset)) pre = pre :=
    List.filter_eq_self.mpr (fun x hx => by simpa using hpre x hx)
  have h2 : List.filter (fun x => decide (x.offset < nt.offset)) post = [] :=
    List.filter_eq_nil_iff.mpr (fun x hx => by simpa using not_lt.mpr (hpost' x hx).le)
  rw [List.filter_append, List.filter_cons_of_neg (by simp), h1, h2, List.append_nil]

/-- At the offset of a note of a sorted, repeat-free voice, the update
test of `visTheseParts` fires: the forward-fill value before that offset
is either absent or has a different pitch. -/
theorem updFlag_fires {ns : List PyNote} (hsort : SortedOffsets ns)
    (hpitch : NoAdjacentRepeats ns) {nt : PyNote} (hmem : nt ∈ ns) :
    updFlag (some nt) (lastBefore ns nt.offset) = true := by
  obtain ⟨pre, post, heq, hfilter, -, -⟩ := sorted_split hsort hmem
  rw [lastBefore, hfilter]
  cases hpre : pre.getLast? with
  | none => rfl
  | some m =>
      rw [updFlag]
      have hne : m.pitch ≠ nt.pitch := by
        rw [NoAdjacentRepeats, heq, List.chain'_append] at hpitch
        exact hpitch.2.2 m hpre nt (by simp)
      rw [if_neg (Ne.symm hne)]

theorem grid_lt_iff (j c : ℕ) : (j : ℚ) / 2 < (c : ℚ) / 2 ↔ j < c := by
  rw [div_lt_div_iff_of_pos_right (by norm_num : (0:ℚ) < 2)]
  exact_mod_cast Iff.rfl

theorem grid_eq_iff (j c : ℕ) : (j : ℚ) / 2 = (c : ℚ) / 2 ↔ j = c := by
  rw [div_eq_div_iff (by norm_num) (by norm_num)]
  constructor
  · intro h
    exact_mod_cast mul_right_cancel₀ (by norm_num : (2:ℚ) ≠ 0) h
  · intro h
    rw [h]

/-- When a voice has no note at the grid instant `k/2`, its forward-fill
value does not change while passing it. -/
theorem lastBefore_advance_no_hit {ns : List PyNote} (hgrid : OnHalfGrid ns) {k : ℕ}
    (hnone : getElementsByOffset ns ((k : ℚ)/2) = none) :
    lastBefore ns (((k+1 : ℕ) : ℚ)/2) = lastBefore ns ((k : ℚ)/2) := by
  rw [lastBefore, lastBefore]
  congr 1
  apply List.filter_congr
  intro x hx
  obtain ⟨j, hj⟩ := hgrid x hx
  have hne := (getElementsByOffset_eq_none_iff ns _).mp hnone x hx
  have hjk : j ≠ k := by
    intro e
    exact hne (by rw [hj, e])
  rw [hj]
  apply decide_eq_decide.mpr
  rw [grid_lt_iff, grid_lt_iff]
  omega

/-- When a sorted voice has a note at the grid instant `k/2`, that note is
the forward-fill value before the next grid instant. -/
theorem lastBefore_advance_hit {ns : List PyNote} (hsort : SortedOffsets ns)
    (hgrid : OnHalfGrid ns) {k : ℕ} {nt : PyNote}
    (hhit : getElementsByOffset ns ((k : ℚ)/2) = some nt) :
    lastBefore ns (((k+1 : ℕ) : ℚ)/2) = some nt := by
  obtain ⟨hmem, hoff⟩ := getElementsByOffset_mem hhit
  obtain ⟨pre, post, heq, -, hpre, hpost⟩ := sorted_split hsort hmem
  have hlt : nt.offset < ((k+1 : ℕ) : ℚ)/2 := by
    rw [hoff, grid_lt_iff]
    omega
  rw [lastBefore, heq, List.filter_append]
  have h1 : List.filter (fun x => decide (x.offset < ((k+1 : ℕ) : ℚ)/2)) pre = pre :=
    List.filter_eq_self.mpr (fun x hx => by
      simpa using lt_trans (hpre x hx) hlt)
  have h2 : List.filter (fun x => decide (x.offset < ((k+1 : ℕ) : ℚ)/2)) post = [] := by
    apply List.filter_eq_nil_iff.mpr
    intro x hx
    obtain ⟨j, hj⟩ := hgrid x (heq ▸ List.mem_append.mpr (Or.inr (List.mem_cons_of_mem nt hx)))
    have hgt : nt.offset < x.offset := hpost x hx
    rw [hoff, hj, grid_lt_iff] at hgt
    simp only [hj, decide_eq_true_eq, not_lt, grid_lt_iff]
    omega
  rw [h1, List.filter_cons_of_pos (by simpa using hlt), h2, List.getLast?_concat]

theorem vtpNewState_inv_low (hfn : List PyNote) {lfn : List PyNote} {st : VtpState} {k : ℕ}
    (hsortL : SortedOffsets lfn) (hgridL : OnHalfGrid lfn)
    (hpitchL : NoAdjacentRepeats lfn)
    (hinv : st.mostRecentLow = lastBefore lfn ((k : ℚ)/2)) :
    (vtpNewState hfn lfn st ((k : ℚ)/2)).mostRecentLow =
      lastBefore lfn (((k+1 : ℕ) : ℚ)/2) := by
  rw [vtpNewState]
  dsimp only
  cases hhit : getElementsByOffset lfn ((k : ℚ)/2) with
  | none =>
      rw [show updFlag none st.mostRecentLow = false from rfl]
      rw [if_neg (by simp)]
      rw [hinv, lastBefore_advance_no_hit hgridL hhit]
  | some nt =>
      obtain ⟨hmem, hoff⟩ := getElementsByOffset_mem hhit
      have hfire := updFlag_fires hsortL hpitchL hmem
      rw [hoff] at hfire
      rw [hinv, hfire, if_pos rfl]
      exact (lastBefore_advance_hit hsortL hgridL hhit).symm

theorem vtpNewState_inv_high {hfn : List PyNote} (lfn : List PyNote) {st : VtpState} {k : ℕ}
    (hsortH : SortedOffsets hfn) (hgridH : OnHalfGrid hfn)
    (hpitchH : NoAdjacentRepeats hfn)
    (hinv : st.mostRecentHigh = lastBefore hfn ((k : ℚ)/2)) :
    (vtpNewState hfn lfn st ((k : ℚ)/2)).mostRecentHigh =
      lastBefore hfn (((k+1 : ℕ) : ℚ)/2) := by
  rw [vtpNewState]
  dsimp only
  cases hhit : getElementsByOffset hfn ((k : ℚ)/2) with
  | none =>
      rw [show updFlag none st.mostRecentHigh = false from rfl]
      rw [if_neg (by simp)]
      rw [hinv, lastBefore_advance_no_hit hgridH hhit]
  | some nt =>
      obtain ⟨hmem, hoff⟩ := getElementsByOffset_mem hhit
      have hfire := updFlag_fires hsortH hpitchH hmem
      rw [hoff] at hfire
      rw [hinv, hfire, if_pos rfl]
      exact (lastBefore_advance_hit hsortH hgridH hhit).symm

theorem mem_allOffsets_iff (hfn lfn : List PyNote) (o : ℚ) :
    o ∈ allOffsets hfn lfn ↔
      (∃ nt ∈ hfn, nt.offset = o) ∨ ∃ nt ∈ lfn, nt.offset = o := by
  simp [allOffsets, List.mem_append]

theorem vtpEmit?_isSome_iff {hfn lfn : List PyNote} {st : VtpState} {k : ℕ}
    (hsortH : SortedOffsets hfn) (hpitchH : NoAdjacentRepeats hfn)
    (hsortL : SortedOffsets lfn) (hpitchL : NoAdjacentRepeats lfn)
    (hinvL : st.mostRecentLow = lastBefore lfn ((k : ℚ)/2))
    (hinvH : st.mostRecentHigh = lastBefore hfn ((k : ℚ)/2)) :
    (vtpEmit? hfn lfn st ((k : ℚ)/2)).isSome ↔ ((k : ℚ)/2) ∈ allOffsets hfn lfn := by
  rw [vtpEmit?]
  dsimp only
  rw [mem_allOffsets_iff]
  cases hhitL : getElementsByOffset lfn ((k : ℚ)/2) with
  | some nt =>
      obtain ⟨hmem, hoff⟩ := getElementsByOffset_mem hhitL
      have hfire := updFlag_fires hsortL hpitchL hmem
      rw [hoff] at hfire
      have hcond : (updFlag (some nt) st.mostRecentLow ||
          updFlag (getElementsByOffset hfn ((k : ℚ)/2)) st.mostRecentHigh) = true := by
        rw [hinvL, hfire, Bool.true_or]
      rw [if_pos hcond]
      exact ⟨fun _ => Or.inr ⟨nt, hmem, hoff⟩, fun _ => rfl⟩
  | none =>
      cases hhitH : getElementsByOffset hfn ((k : ℚ)/2) with
      | some nt =>
          obtain ⟨hmem, hoff⟩ := getElementsByOffset_mem hhitH
          have hfire := updFlag_fires hsortH hpitchH hmem
          rw [hoff] at hfire
          have hcond : (updFlag (none : Option PyNote) st.mostRecentLow ||
              updFlag (some nt) st.mostRecentHigh) = true := by
            rw [hinvH, hfire, Bool.or_true]
          rw [if_pos hcond]
          exact ⟨fun _ => Or.inl ⟨nt, hmem, hoff⟩, fun _ => rfl⟩
      | none =>
          have hcond : ¬ ((updFlag (none : Option PyNote) st.mostRecentLow ||
              updFlag (none : Option PyNote) st.mostRecentHigh) = true) := by
            rw [show updFlag (none : Option PyNote) st.mostRecentLow = false from rfl,
              show updFlag (none : Option PyNote) st.mostRecentHigh = false from rfl]
            simp
          rw [if_neg hcond]
          apply iff_of_false
          · simp
          · rintro (⟨nt, hnt, ho⟩ | ⟨nt, hnt, ho⟩)
            · exact (getElementsByOffset_eq_none_iff hfn _).mp hhitH nt hnt ho
            · exact (getElementsByOffset_eq_none_iff lfn _).mp hhitL nt hnt ho

/-- The offsets at which `visTheseParts` records a moment, over a tail of
the visited grid: exactly the union offsets lying on the processed grid
positions. -/
theorem vtpRun_mem_iff {hfn lfn : List PyNote}
    (hsortH : SortedOffsets hfn) (hgridH : OnHalfGrid hfn) (hpitchH : NoAdjacentRepeats hfn)
    (hsortL : SortedOffsets lfn) (hgridL : OnHalfGrid lfn) (hpitchL : NoAdjacentRepeats lfn) :
    ∀ (m k : ℕ) (st : VtpState),
      st.mostRecentLow = lastBefore lfn ((k : ℚ)/2) →
      st.mostRecentHigh = lastBefore hfn ((k : ℚ)/2) →
      ∀ o : ℚ,
        (o ∈ (vtpRun hfn lfn st ((List.range' k m).map (fun (j : ℕ) => (j : ℚ)/2))).map Prod.fst ↔
          o ∈ allOffsets hfn lfn ∧ ∃ j : ℕ, k ≤ j ∧ j < k + m ∧ o = (j : ℚ)/2) := by
  intro m
  induction m with
  | zero =>
      intro k st hL hH o
      constructor
      · intro h
        simp [List.range', vtpRun] at h
      · rintro ⟨-, j, h1, h2, -⟩
        omega
  | succ m ih =>
      intro k st hL hH o
      have hinvL' := vtpNewState_inv_low hfn hsortL hgridL hpitchL hL
      have hinvH' := vtpNewState_inv_high lfn hsortH hgridH hpitchH hH
      rw [List.range'_succ, List.map_cons, vtpRun]
      cases he : vtpEmit? hfn lfn st ((k : ℚ)/2) with
      | some e =>
          rw [List.map_cons, List.mem_cons]
          rw [ih (k+1) (vtpNewState hfn lfn st ((k : ℚ)/2)) hinvL' hinvH' o]
          have hmem : ((k : ℚ)/2) ∈ allOffsets hfn lfn := by
            rw [← vtpEmit?_isSome_iff hsortH hpitchH hsortL hpitchL hL hH, he]
            rfl
          constructor
          · rintro (rfl | ⟨ha, j, h1, h2, h3⟩)
            · exact ⟨hmem, k, le_refl k, by omega, rfl⟩
            · exact ⟨ha, j, by omega, by omega, h3⟩
          · rintro ⟨ha, j, h1, h2, h3⟩
            rcases eq_or_lt_of_le h1 with rfl | hlt
            · exact Or.inl h3
            · exact Or.inr ⟨ha, j, by omega, by omega, h3⟩
      | none =>
          rw [ih (k+1) (vtpNewState hfn lfn st ((k : ℚ)/2)) hinvL' hinvH' o]
          have hnmem : ((k : ℚ)/2) ∉ allOffsets hfn lfn := by
            rw [← vtpEmit?_isSome_iff hsortH hpitchH hsortL hpitchL hL hH, he]
            simp
          constructor
          · rintro ⟨ha, j, h1, h2, h3⟩
            exact ⟨ha, j, by omega, by omega, h3⟩
          · rintro ⟨ha, j, h1, h2, h3⟩
            rcases eq_or_lt_of_le h1 with rfl | hlt
            · exact absurd (h3 ▸ ha) hnmem
            · exact ⟨ha, j, by omega, by omega, h3⟩

theorem lastBefore_grid_zero {ns : List PyNote} (hgrid : OnHalfGrid ns) :
    lastBefore ns (((0 : ℕ) : ℚ)/2) = none := by
  rw [lastBefore]
  rw [List.filter_eq_nil_iff.mpr ?_]
  · rfl
  · intro x hx
    obtain ⟨j, hj⟩ := hgrid x hx
    simp only [hj, decide_eq_true_eq, not_lt, grid_lt_iff]
    omega

theorem le_foldl_pymax (l : List PyNote) (a : ℚ) :
    a ≤ l.foldl (fun acc nt => pymax acc nt.offset) a := by
  induction l generalizing a with
  | nil => exact le_refl a
  | cons x l ih =>
      rw [List.foldl_cons]
      exact le_trans (by rw [pymax_eq_max]; exact le_max_left _ _) (ih (pymax a x.offset))

theorem mem_le_foldl_pymax {nt : PyNote} :
    ∀ (l : List PyNote) (a : ℚ), nt ∈ l →
      nt.offset ≤ l.foldl (fun acc x => pymax acc x.offset) a := by
  intro l
  induction l with
  | nil => intro a h; simp at h
  | cons x l ih =>
      intro a h
      rw [List.foldl_cons]
      rcases List.mem_cons.mp h with rfl | hmem
      · exact le_trans (by rw [pymax_eq_max]; exact le_max_right _ _)
          (le_foldl_pymax l (pymax a nt.offset))
      · exact ih (pymax a x.offset) hmem

theorem offset_le_highestOffset {ns : List PyNote} {nt : PyNote} (h : nt ∈ ns) :
    nt.offset ≤ highestOffset ns :=
  mem_le_foldl_pymax ns 0 h

/-- C1 (amended): the legacy aligner records a row exactly at the offsets
of the union of the two voices' offsets, provided the voices are sorted
with strictly increasing offsets, every offset is a nonnegative multiple
of the counting interval `0.5`, and no voice repeats a pitch on two
consecutive notes.  (Offsets off the `0.5` grid are missed — see the
counterexample — and no row is ever emitted outside the union.) -/
theorem visTheseParts_rows_iff_union (hfn lfn : List PyNote)
    (hsortH : SortedOffsets hfn) (hgridH : OnHalfGrid hfn)
    (hpitchH : NoAdjacentRepeats hfn)
    (hsortL : SortedOffsets lfn) (hgridL : OnHalfGrid lfn)
    (hpitchL : NoAdjacentRepeats lfn) :
    ∀ o : ℚ, o ∈ (visTheseParts hfn lfn).map Prod.fst ↔ o ∈ allOffsets hfn lfn := by
  intro o
  rw [visTheseParts, vtpOffsets]
  rw [List.range_eq_range']
  rw [vtpRun_mem_iff hsortH hgridH hpitchH hsortL hgridL hpitchL
    (⌊2 * pymax (highestOffset hfn) (highestOffset lfn)⌋.toNat + 1) 0
    ⟨none, none, [], []⟩ (lastBefore_grid_zero hgridL).symm
    (lastBefore_grid_zero hgridH).symm o]
  constructor
  · exact fun h => h.1
  · intro ho
    refine ⟨ho, ?_⟩
    have hex : ∃ nt, nt ∈ hfn ++ lfn ∧ nt.offset = o := by
      rcases (mem_allOffsets_iff hfn lfn o).mp ho with ⟨nt, hnt, h⟩ | ⟨nt, hnt, h⟩
      · exact ⟨nt, List.mem_append.mpr (Or.inl hnt), h⟩
      · exact ⟨nt, List.mem_append.mpr (Or.inr hnt), h⟩
    obtain ⟨nt, hnt, hoff⟩ := hex
    have hgridnt : ∃ j : ℕ, nt.offset = (j : ℚ)/2 := by
      rcases List.mem_append.mp hnt with hh | hh
      · exact hgridH nt hh
      · exact hgridL nt hh
    obtain ⟨j, hj⟩ := hgridnt
    have hle : nt.offset ≤ pymax (highestOffset hfn) (highestOffset lfn) := by
      rw [pymax_eq_max]
      rcases List.mem_append.mp hnt with hh | hh
      · exact le_trans (offset_le_highestOffset hh) (le_max_left _ _)
      · exact le_trans (offset_le_highestOffset hh) (le_max_right _ _)
    have hjq : (j : ℚ) ≤ 2 * pymax (highestOffset hfn) (highestOffset lfn) := by
      rw [hj] at hle
      linarith
    have hjf : (j : ℤ) ≤ ⌊2 * pymax (highestOffset hfn) (highestOffset lfn)⌋ :=
      Int.le_floor.mpr (by push_cast; linarith)
    refine ⟨j, Nat.zero_le j, by omega, by rw [← hoff, hj]⟩

/-- Witness for `visTheseParts_rows_iff_union` on the one-note voices
`hfn = [note at 0, pitch 4]`, `lfn = [note at 0, pitch 0]`. -/
theorem visTheseParts_rows_iff_union_witness :
    SortedOffsets [⟨0, 4⟩] ∧ OnHalfGrid [⟨0, 4⟩] ∧ NoAdjacentRepeats [⟨0, 4⟩] ∧
      SortedOffsets [⟨0, 0⟩] ∧ OnHalfGrid [⟨0, 0⟩] ∧ NoAdjacentRepeats [⟨0, 0⟩] ∧
      ∀ o : ℚ, o ∈ (visTheseParts [⟨0, 4⟩] [⟨0, 0⟩]).map Prod.fst ↔
        o ∈ allOffsets [⟨0, 4⟩] [⟨0, 0⟩] := by
  have hs1 : SortedOffsets [(⟨0, 4⟩ : PyNote)] := by simp [SortedOffsets]
  have hg1 : OnHalfGrid [(⟨0, 4⟩ : PyNote)] := by
    intro nt h
    rw [List.mem_singleton] at h
    subst h
    exact ⟨0, by norm_num⟩
  have hp1 : NoAdjacentRepeats [(⟨0, 4⟩ : PyNote)] := by simp [NoAdjacentRepeats]
  have hs2 : SortedOffsets [(⟨0, 0⟩ : PyNote)] := by simp [SortedOffsets]
  have hg2 : OnHalfGrid [(⟨0, 0⟩ : PyNote)] := by
    intro nt h
    rw [List.mem_singleton] at h
    subst h
    exact ⟨0, by norm_num⟩
  have hp2 : NoAdjacentRepeats [(⟨0, 0⟩ : PyNote)] := by simp [NoAdjacentRepeats]
  exact ⟨hs1, hg1, hp1, hs2, hg2, hp2,
    visTheseParts_rows_iff_union [⟨0, 4⟩] [⟨0, 0⟩] hs1 hg1 hp1 hs2 hg2 hp2⟩

end Vis

